import Mathlib

/-!
Shallow embedding of `src/valhalla/meili/viterbi_search.h` (bboure/valhalla).

The file models the two search engines of the map-matching core:

* `NaiveViterbiSearch` (here the `naive*` definitions): full-trellis dynamic
  programming, template parameter `Maximize : Bool`;
* `ViterbiSearch` (here the `lazy*` definitions): incremental best-first
  (Dijkstra-style) expansion with column-emptiness pruning, breakage restarts
  and an `earliest_time` watermark.

Conventions of the embedding:

* `StateId` and `Time` are `ℕ`; the C++ sentinels `kInvalidStateId` /
  `kInvalidTime` and null pointers are modelled as `Option` `none`.
* costs (`double` / `float` in C++) are modelled as `ℤ`;
* the trellis is a list of columns `List (List ℕ)` of state ids, and state
  times (`state.time()`) are given by a function `tm : ℕ → ℕ`;
* the cost model callbacks (supplied by the host in C++ via virtual methods)
  are a structure of functions;
* fatal `throw`s are modelled as `Except.error` with the (constant part of)
  the C++ message; loops are modelled with an explicit fuel argument whose
  exhaustion yields the distinguished error string `"out of fuel"`, which is
  not a behaviour of the C++ code (all concrete runs below are given ample
  fuel).
-/

deriving instance DecidableEq for Except

/-- Cost model of the LAZY engine (`ViterbiSearch`): the three host callbacks
`EmissionCost`, `TransitionCost` and `CostSofar`.  `IsInvalidCost cost` is
`cost < 0` (`ViterbiSearch::IsInvalidCost`). -/
structure CostModel where
  emission : ℕ → ℤ
  transition : ℕ → ℕ → ℤ
  costSofar : ℤ → ℤ → ℤ → ℤ
deriving Inhabited

/-- Label of the LAZY engine (`ViterbiSearch::Label`, a `LabelTemplate`):
accumulated cost, owning state id, optional predecessor state id. -/
structure LLabel where
  costsofar : ℤ
  state : ℕ
  pred : Option ℕ
deriving DecidableEq, Repr

/-- State of the LAZY engine: `unreached_states_`, `winner_` (null pointers
as `none`), `scanned_labels_` (the unordered map as an association list with
unique keys), `queue_`, and `earliest_time_`. -/
structure LazyState where
  unreached : List (List ℕ)
  winner : List (Option ℕ)
  scanned : List (ℕ × LLabel)
  queue : List LLabel
  earliest : ℕ
deriving DecidableEq, Repr

/-- Engine state right after the host has populated the columns
(`unreached_states_` holds every state, nothing searched yet). -/
def initLazy (cols : List (List ℕ)) : LazyState :=
  ⟨cols, [], [], [], 0⟩

/-- Modelled from the spec: `SPQueue` lives in `meili/priority_queue.h`, which
is not among the sources.  Per the spec it is "a min/max binary-heap keyed by
label cost, supporting push, pop-top, and clear" with "push, top, pop, empty,
clear" as the required operations and no decrease-key, and deterministic but
unspecified tie-breaking.  We model it as a list in push order whose top is
the first label of minimal `costsofar`. -/
def queueTop : List LLabel → Option LLabel
  | [] => none
  | l :: ls =>
    match queueTop ls with
    | none => some l
    | some m => if l.costsofar ≤ m.costsofar then some l else some m

/-- Modelled from the spec: removal of the popped top from the `SPQueue`
model (first occurrence of the given label value). -/
def queueRemove (l : LLabel) : List LLabel → List LLabel
  | [] => []
  | x :: xs => if x = l then xs else x :: queueRemove l xs

/-- Modelled from the spec: `SPQueue` top-then-pop, returning the popped
label and the remaining queue. -/
def queuePop (q : List LLabel) : Option (LLabel × List LLabel) :=
  match queueTop q with
  | none => none
  | some m => some (m, queueRemove m q)

/-- Modelled from the spec: `SPQueue::push` (labels are kept in push order;
the heap order only matters through `queueTop`). -/
def queuePush (q : List LLabel) (l : LLabel) : List LLabel :=
  q ++ [l]

/-- `ViterbiSearch::InitQueue`: clear the queue and push an emission-only
label for every state of the column whose emission cost is valid. -/
def initQueue (M : CostModel) (column : List ℕ) : List LLabel :=
  column.foldl
    (fun q s =>
      let e := M.emission s
      if e < 0 then q else queuePush q ⟨e, s, none⟩) []

/-- Message of the duplicate-settlement `logic_error` in
`ViterbiSearch::IterativeSearch`. -/
def optimalityMsg : String :=
  "the principle of optimality is violated, probably negative costs occurred"

/-- `ViterbiSearch::AddSuccessorsToQueue`: push a label for every unreached
state of the next column reachable from `s` by a valid emission, transition
and accumulated cost.  The dynamic parts of the C++ error messages
(`std::to_string`) are dropped. -/
def addSuccessorsToQueue (M : CostModel) (tm : ℕ → ℕ) (st : LazyState) (s : ℕ) :
    Except String LazyState :=
  if tm s + 1 < st.unreached.length then
    match List.lookup s st.scanned with
    | none => .error "the state must be scanned"
    | some lab =>
      if lab.costsofar < 0 then
        .error "impossible to get invalid cost from scanned labels"
      else
        .ok { st with
              queue :=
                (st.unreached.getD (tm s + 1) []).foldl
                  (fun q nx =>
                    let e := M.emission nx
                    if e < 0 then q
                    else
                      let tr := M.transition s nx
                      if tr < 0 then q
                      else
                        let cs := M.costSofar lab.costsofar tr e
                        if cs < 0 then q
                        else queuePush q ⟨cs, nx, some s⟩)
                  st.queue }
  else .error "the state is impossible to have successors"

/-- Outcome of processing one popped label in the main loop of
`ViterbiSearch::IterativeSearch`: queue empty, stale label discarded, fatal
error, or a state settled (scanned, removed from its column, `earliest_time`
and `winner_` updated). -/
inductive PopOut
  | empty
  | discarded (st : LazyState)
  | err (msg : String)
  | settled (st : LazyState) (id : ℕ)
deriving DecidableEq, Repr

/-- Remove the first occurrence of `id` from a column
(`std::find_if` + `erase` in `ViterbiSearch::IterativeSearch`); `none` when
the id is absent (the C++ then throws). -/
def removeFirst (id : ℕ) : List ℕ → Option (List ℕ)
  | [] => none
  | x :: xs =>
    if x = id then some xs
    else (removeFirst id xs).map (fun ys => x :: ys)

/-- One iteration of the main loop of `ViterbiSearch::IterativeSearch`, up to
and including the first-arrival winner update (the `searched_time` update,
break test and successor expansion are done by the caller `lazyLoop`). -/
def lazyPopStep (tm : ℕ → ℕ) (st : LazyState) : PopOut :=
  match queuePop st.queue with
  | none => .empty
  | some (label, q) =>
    let st1 : LazyState := { st with queue := q }
    let id := label.state
    let time := tm id
    if time < st1.earliest then .discarded st1
    else if (List.lookup id st1.scanned).isSome then .err optimalityMsg
    else
      let st2 : LazyState := { st1 with scanned := (id, label) :: st1.scanned }
      match removeFirst id (st2.unreached.getD time []) with
      | none => .err "the state must exist in the column"
      | some col =>
        let st3 : LazyState := { st2 with unreached := st2.unreached.set time col }
        let st4 : LazyState :=
          if col = [] then { st3 with earliest := time + 1 } else st3
        if st4.winner.length ≤ time then
          if time = st4.winner.length then
            .settled { st4 with winner := st4.winner ++ [some id] } id
          else .err "found a state from the future time"
        else .settled st4 id

/-- Main loop of `ViterbiSearch::IterativeSearch` (the `while (!queue_.empty())`
loop), with fuel. -/
def lazyLoop (M : CostModel) (tm : ℕ → ℕ) :
    ℕ → ℕ → ℕ → LazyState → Except String (ℕ × LazyState)
  | 0, _, _, _ => .error "out of fuel"
  | fuel + 1, target, searched, st =>
    match lazyPopStep tm st with
    | .empty => .ok (searched, st)
    | .discarded st1 => lazyLoop M tm fuel target searched st1
    | .err m => .error m
    | .settled st1 id =>
      let searched1 := max (tm id) searched
      if target ≤ searched1 then .ok (searched1, st1)
      else
        match addSuccessorsToQueue M tm st1 id with
        | .error m => .error m
        | .ok st2 => lazyLoop M tm fuel target searched1 st2

/-- Post-loop padding of `winner_` with null entries up to `searched_time`
(`while (winner_.size() <= searched_time) winner_.push_back(nullptr)`). -/
def padWinner (st : LazyState) (searched : ℕ) : LazyState :=
  { st with winner := st.winner ++ List.replicate (searched + 1 - st.winner.length) none }

/-- `ViterbiSearch::IterativeSearch`: target bounds check, cached-winner
shortcut, seeding (continue from the last winner or re-initialize the queue
from the column at `winner_.size()`), then the main loop and winner padding. -/
def iterativeSearch (M : CostModel) (tm : ℕ → ℕ) (fuel target : ℕ)
    (reqNew : Bool) (st : LazyState) : Except String (ℕ × LazyState) :=
  if st.unreached.length ≤ target then
    .error
      (if st.unreached.isEmpty then
        "empty states: add some states at least before searching"
      else "the target time is beyond the maximum allowed time")
  else if target < st.winner.length then .ok (target, st)
  else
    let cont : Option ℕ :=
      if reqNew then none
      else
        match st.winner.getLast? with
        | some (some w) => some w
        | _ => none
    match cont with
    | some w =>
      match addSuccessorsToQueue M tm st w with
      | .error m => .error m
      | .ok st1 =>
        let source := st.winner.length - 1
        match lazyLoop M tm fuel target source st1 with
        | .error m => .error m
        | .ok (searched, st2) => .ok (searched, padWinner st2 searched)
    | none =>
      let source := st.winner.length
      let st1 : LazyState := { st with queue := initQueue M (st.unreached.getD source []) }
      match lazyLoop M tm fuel target source st1 with
      | .error m => .error m
      | .ok (searched, st2) => .ok (searched, padWinner st2 searched)

/-- The `while (searched_time < target)` restart loop of
`ViterbiSearch::SearchWinner`, with fuel. -/
def swLoop (M : CostModel) (tm : ℕ → ℕ) (fuelI : ℕ) :
    ℕ → ℕ → ℕ → LazyState → Except String (ℕ × LazyState)
  | 0, target, searched, st =>
    if searched < target then .error "out of fuel" else .ok (searched, st)
  | fuelW + 1, target, searched, st =>
    if searched < target then
      match iterativeSearch M tm fuelI target true st with
      | .error m => .error m
      | .ok (s1, st1) => swLoop M tm fuelI fuelW target s1 st1
    else .ok (searched, st)

/-- `ViterbiSearch::SearchWinner`: winner-cache shortcut, empty-trellis
shortcut, clamping of the requested time to the last column, one continuing
search then restarting searches until the clamped target is reached. -/
def lazySearchWinner (M : CostModel) (tm : ℕ → ℕ) (fuel t : ℕ) (st : LazyState) :
    Except String (Option ℕ × LazyState) :=
  if t < st.winner.length then .ok (st.winner.getD t none, st)
  else if st.unreached.isEmpty then .ok (none, st)
  else
    let target := min t (st.unreached.length - 1)
    match iterativeSearch M tm fuel target false st with
    | .error m => .error m
    | .ok (s1, st1) =>
      match swLoop M tm fuel fuel target s1 st1 with
      | .error m => .error m
      | .ok (_, st2) =>
        .ok ((if t < st2.winner.length then st2.winner.getD t none else none), st2)

/-- `ViterbiSearch::predecessor`: predecessor id recorded in
`scanned_labels_`, or absent.  The argument is an `Option` because the C++
takes any `StateId` including `kInvalidStateId` (never a key of the map). -/
def lazyPredecessor (st : LazyState) (id? : Option ℕ) : Option ℕ :=
  match id? with
  | none => none
  | some id =>
    match List.lookup id st.scanned with
    | none => none
    | some lab => lab.pred

/-- `ViterbiSearch::AccumulatedCost`: cost recorded in `scanned_labels_`, or
the invalid sentinel `-1`. -/
def lazyAccumulatedCost (st : LazyState) (id : ℕ) : ℤ :=
  match List.lookup id st.scanned with
  | none => -1
  | some lab => lab.costsofar

/-!
The NAIVE engine (`NaiveViterbiSearch<T, Maximize>`).  Its invalid-cost
sentinel is `+infinity` when minimizing and `-infinity` when maximizing; a
cost is modelled as `Option ℤ` where `none` stands for the sentinel of the
current polarity.
-/

/-- Cost model of the NAIVE engine: the callbacks may return the invalid
sentinel (`none`).  `costSofar` is only called on non-sentinel inputs. -/
structure NCostModel where
  emission : ℕ → Option ℤ
  transition : ℕ → ℕ → Option ℤ
  costSofar : ℤ → ℤ → ℤ → Option ℤ

/-- The NAIVE cost model induced by a LAZY cost model `M`: a value that the
LAZY engine treats as invalid (negative) becomes the NAIVE sentinel.  These
are the "cost models accepted by both engines" of the spec. -/
def toNModel (M : CostModel) : NCostModel where
  emission s := if M.emission s < 0 then none else some (M.emission s)
  transition a b := if M.transition a b < 0 then none else some (M.transition a b)
  costSofar p t e := if M.costSofar p t e < 0 then none else some (M.costSofar p t e)

/-- Label of the NAIVE engine (`LabelTemplate`): possibly-sentinel cost,
state id, optional predecessor id. -/
structure NLabel where
  costsofar : Option ℤ
  state : ℕ
  pred : Option ℕ
deriving DecidableEq, Repr

/-- Comparison of NAIVE costs by the `double` order `<`, where the sentinel
`none` is `+infinity` when minimizing and `-infinity` when maximizing. -/
def ncostLT (maximize : Bool) (a b : Option ℤ) : Bool :=
  match a, b with
  | some x, some y => decide (x < y)
  | some _, none => !maximize
  | none, some _ => maximize
  | none, none => false

/-- Modelled from the spec: order on predecessor pointers used by the label
order (null pointer first, then allocation order, modelled as id order). -/
def predLT (a b : Option ℕ) : Bool :=
  match a, b with
  | none, none => false
  | none, some _ => true
  | some _, none => false
  | some i, some j => decide (i < j)

/-- Modelled from the spec: the full label order used by `std::min` /
`std::max` in `NaiveViterbiSearch::UpdateLabels`.  The comparison operator of
`LabelInterface` lives in `meili/priority_queue.h`, which is not among the
sources; per the spec it is the lexicographic order on (cost, state pointer,
predecessor pointer), with pointer order modelled as id order. -/
def labelLT (maximize : Bool) (a b : NLabel) : Bool :=
  ncostLT maximize a.costsofar b.costsofar ||
    (a.costsofar = b.costsofar &&
      (decide (a.state < b.state) ||
        (a.state = b.state && predLT a.pred b.pred)))

/-- `NaiveViterbiSearch::InitLabels`: per-state labels with either the
emission cost or the invalid sentinel, and no predecessor. -/
def initLabels (NM : NCostModel) (column : List ℕ) (useEmission : Bool) :
    List NLabel :=
  column.map (fun s => ⟨if useEmission then NM.emission s else none, s, none⟩)

/-- Inner body of `NaiveViterbiSearch::UpdateLabels`: relax every label of
the current column from one previous-column label (skipping sentinel
emission, transition or accumulated costs), keeping the `std::min` /
`std::max` of the candidate and the current label. -/
def relaxWithPrev (NM : NCostModel) (maximize : Bool) (pl : NLabel)
    (ls : List NLabel) : List NLabel :=
  match pl.costsofar with
  | none => ls
  | some pc =>
    ls.map (fun l =>
      match NM.emission l.state with
      | none => l
      | some ec =>
        match NM.transition pl.state l.state with
        | none => l
        | some tc =>
          match NM.costSofar pc tc ec with
          | none => l
          | some c =>
            let nl : NLabel := ⟨some c, l.state, some pl.state⟩
            if maximize then (if labelLT maximize nl l then l else nl)
            else (if labelLT maximize l nl then l else nl))

/-- `NaiveViterbiSearch::UpdateLabels`: fold `relaxWithPrev` over the
previous column's labels. -/
def updateLabels (NM : NCostModel) (maximize : Bool)
    (ls prev : List NLabel) : List NLabel :=
  prev.foldl (fun acc pl => relaxWithPrev NM maximize pl acc) ls

/-- First optimal label of a list under the polarity order
(`std::min_element` / `std::max_element` keep the first optimum). -/
def bestLabel (maximize : Bool) : List NLabel → Option NLabel
  | [] => none
  | l :: ls =>
    match bestLabel maximize ls with
    | none => some l
    | some m =>
      if maximize then
        (if ncostLT maximize l.costsofar m.costsofar then some m else some l)
      else
        (if ncostLT maximize m.costsofar l.costsofar then some m else some l)

/-- `NaiveViterbiSearch::FindWinner`: the first optimal label's state, or
none when the list is empty or the optimum is the invalid sentinel. -/
def findWinner (maximize : Bool) (ls : List NLabel) : Option ℕ :=
  match bestLabel maximize ls with
  | none => none
  | some m => if m.costsofar = none then none else some m.state

/-- State of the NAIVE engine: the winner cache `winner_` and the label
history `history_` (one label vector per searched time). -/
structure NaiveState where
  winner : List (Option ℕ)
  history : List (List NLabel)
deriving DecidableEq, Repr

/-- One iteration of the column loop of `NaiveViterbiSearch::SearchWinner`
for `time = winner_.size()`: build the column's labels (emission-only at time
0, Bellman relaxation from `history_.back()` otherwise), find the winner, and
on an unreachable column at positive time re-initialize from emission costs
only (the restart-from-emission breakage policy). -/
def naiveStep (cols : List (List ℕ)) (NM : NCostModel) (maximize : Bool)
    (ns : NaiveState) : NaiveState :=
  let time := ns.winner.length
  let column := cols.getD time []
  let labels :=
    if time = 0 then initLabels NM column true
    else updateLabels NM maximize (initLabels NM column false) (ns.history.getLastD [])
  let w := findWinner maximize labels
  if w = none ∧ 0 < time then
    let labels2 := initLabels NM column true
    ⟨ns.winner ++ [findWinner maximize labels2], ns.history ++ [labels2]⟩
  else ⟨ns.winner ++ [w], ns.history ++ [labels]⟩

/-- The column loop of `NaiveViterbiSearch::SearchWinner`, iterated `n`
times. -/
def naiveRun (cols : List (List ℕ)) (NM : NCostModel) (maximize : Bool) :
    ℕ → NaiveState → NaiveState
  | 0, ns => ns
  | n + 1, ns => naiveRun cols NM maximize n (naiveStep cols NM maximize ns)

/-- `NaiveViterbiSearch::SearchWinner`: absent beyond the populated columns,
cached when already computed, otherwise extend the winner cache and history
column by column up to the target. -/
def naiveSearchWinner (cols : List (List ℕ)) (NM : NCostModel)
    (maximize : Bool) (ns : NaiveState) (target : ℕ) :
    Option ℕ × NaiveState :=
  if cols.length ≤ target then (none, ns)
  else if target < ns.winner.length then (ns.winner.getD target none, ns)
  else
    let ns1 := naiveRun cols NM maximize (target + 1 - ns.winner.length) ns
    (ns1.winner.getD target none, ns1)

/-- `NaiveViterbiSearch::label`: linear search of a state's label within its
column's history (`none` models the it-cannot-happen `runtime_error`). -/
def naiveLabelOf (tm : ℕ → ℕ) (ns : NaiveState) (id : ℕ) : Option NLabel :=
  (ns.history.getD (tm id) []).find? (fun l => l.state == id)

/-- `NaiveViterbiSearch::AccumulatedCost` on a valid id: the looked-up
label's cost (outer `none` models the label-not-found `runtime_error`, inner
`none` the invalid-cost sentinel). -/
def naiveAccumulatedCost (tm : ℕ → ℕ) (ns : NaiveState) (id : ℕ) :
    Option (Option ℤ) :=
  (naiveLabelOf tm ns id).map (fun l => l.costsofar)

/-- `NaiveViterbiSearch::predecessor` on a valid id. -/
def naivePredecessor (tm : ℕ → ℕ) (ns : NaiveState) (id : ℕ) :
    Option (Option ℕ) :=
  (naiveLabelOf tm ns id).map (fun l => l.pred)

/-!
The backward path iterator (`StateIterator`, shared by both engines through
the `IViterbiSearch` interface; instantiated here for the LAZY engine, whose
`SearchWinner` threads engine state and may fail).  An iterator position is
`(id_, time_)`; the end sentinel `(kInvalidStateId, kInvalidTime)` is the
dedicated constructor `IterPos.stop`.
-/

/-- Position of a `StateIterator`: a live position `(id_, time_)` with `id_`
possibly invalid (`none`), or the end sentinel. -/
inductive IterPos
  | live (id? : Option ℕ) (time : ℕ)
  | stop
deriving DecidableEq, Repr

/-- `StateIterator::goback` for the LAZY engine: at positive time move to the
predecessor; when the predecessor is absent fall back on `SearchWinner` of
the decremented time; at time 0 become the end sentinel. -/
def lazyGoback (M : CostModel) (tm : ℕ → ℕ) (fuel : ℕ) (p : IterPos)
    (st : LazyState) : Except String (IterPos × LazyState) :=
  match p with
  | .stop => .ok (.stop, st)
  | .live _ 0 => .ok (.stop, st)
  | .live id? (t + 1) =>
    match lazyPredecessor st id? with
    | some i => .ok (.live (some i) t, st)
    | none =>
      match lazySearchWinner M tm fuel t st with
      | .error m => .error m
      | .ok (w, st1) => .ok (.live w t, st1)

/-- Repeated `goback` collecting the ids of the visited live positions, with
fuel (what a caller iterating `SearchPath(t)` to `PathEnd()` observes). -/
def collectPath (M : CostModel) (tm : ℕ → ℕ) (fuelSW : ℕ) :
    ℕ → IterPos → LazyState → Except String (List (Option ℕ) × LazyState)
  | 0, _, _ => .error "out of fuel"
  | n + 1, p, st =>
    match p with
    | .stop => .ok ([], st)
    | .live id? t =>
      match lazyGoback M tm fuelSW (.live id? t) st with
      | .error m => .error m
      | .ok (p1, st1) =>
        match collectPath M tm fuelSW n p1 st1 with
        | .error m => .error m
        | .ok (l, st2) => .ok (id? :: l, st2)

/-- `IViterbiSearch::SearchPath`: the iterator starting at
`(SearchWinner(time), time)`. -/
def lazySearchPathStart (M : CostModel) (tm : ℕ → ℕ) (fuel t : ℕ)
    (st : LazyState) : Except String (IterPos × LazyState) :=
  match lazySearchWinner M tm fuel t st with
  | .error m => .error m
  | .ok (w, st1) => .ok (.live w t, st1)

/-- The full id sequence observed by iterating `SearchPath(t)` to the end. -/
def lazySearchPathIds (M : CostModel) (tm : ℕ → ℕ) (fuel t : ℕ)
    (st : LazyState) : Except String (List (Option ℕ) × LazyState) :=
  match lazySearchPathStart M tm fuel t st with
  | .error m => .error m
  | .ok (p, st1) => collectPath M tm fuel (t + 2) p st1

/-!
Valid paths through the trellis and their accumulated costs, for the LAZY
cost model (a cost is invalid iff negative).  A path from column 0 to a state
`id` at time `t` picks one state per column; its cost starts from the first
state's emission cost and accumulates `CostSofar` along valid transitions,
and is defined (`some`) only when every emission, transition and intermediate
accumulated cost is valid.
-/

/-- Accumulated cost of the remainder of a path, given the accumulated cost
`c` at the previous state `p`. -/
def pathCostFrom (M : CostModel) : ℤ → ℕ → List ℕ → Option ℤ
  | c, _, [] => some c
  | c, p, s :: rest =>
    let e := M.emission s
    if e < 0 then none
    else
      let tr := M.transition p s
      if tr < 0 then none
      else
        let c1 := M.costSofar c tr e
        if c1 < 0 then none else pathCostFrom M c1 s rest

/-- Accumulated cost of a path (list of states, one per successive column),
or `none` if any component cost is invalid. -/
def pathCost (M : CostModel) : List ℕ → Option ℤ
  | [] => none
  | s :: rest =>
    let e := M.emission s
    if e < 0 then none else pathCostFrom M e s rest

/-- All column-respecting paths from column 0 of the trellis to the state
`id` in column `t` (one state per column). -/
def allPathsTo (cols : List (List ℕ)) : ℕ → ℕ → List (List ℕ)
  | 0, id => if id ∈ cols.getD 0 [] then [[id]] else []
  | t + 1, id =>
    if id ∈ cols.getD (t + 1) [] then
      ((cols.getD t []).flatMap (fun p => allPathsTo cols t p)).map
        (fun path => path ++ [id])
    else []

/-- The costs of all valid paths from column 0 to state `id` in column `t`. -/
def pathCostsTo (cols : List (List ℕ)) (M : CostModel) (t id : ℕ) : List ℤ :=
  (allPathsTo cols t id).filterMap (pathCost M)

/-!
Concrete trellises and cost models used by individual claims.  All of them
use `CostSofar = prev + transition + emission` (which is monotone
non-decreasing in its first argument and, all component costs being
non-negative, satisfies `CostSofar(x, ...) ≥ x`), and the invalid sentinel is
any negative number.
-/

/-- Breakage example of the spec (scenario 3): three singleton columns
`{a}, {b}, {c}` with ids `0, 1, 2`, zero emissions, transition `a → b`
invalid and `b → c` of cost 1. -/
def cols5 : List (List ℕ) := [[0], [1], [2]]

/-- Time of each state in `cols5` (and in the other straight-line examples
whose state ids equal their times). -/
def tmId : ℕ → ℕ := fun s => s

/-- Cost model of the breakage example. -/
def M5 : CostModel where
  emission _ := 0
  transition a b := if a = 0 ∧ b = 1 then -1 else if a = 1 ∧ b = 2 then 1 else -1
  costSofar p t e := p + t + e

/-- Trellis of the duplicate-settlement run: columns `{a, b}, {c, d}, {e}`
with ids `0, 1, 2, 3, 4`. -/
def cols8 : List (List ℕ) := [[0, 1], [2, 3], [4]]

/-- Times of the states of `cols8`. -/
def tm8 : ℕ → ℕ := fun s => if s ≤ 1 then 0 else if s ≤ 3 then 1 else 2

/-- Cost model of the duplicate-settlement run: all costs non-negative,
`CostSofar` the sum.  Emissions `a = 0, b = 1`, others 0; transitions
`T(a,c) = 2`, `T(b,c) = 0`, `T(a,d) = T(b,d) = 10`, `T(c,e) = T(d,e) = 5`. -/
def M8 : CostModel where
  emission s := if s = 1 then 1 else 0
  transition a b :=
    if b = 2 then (if a = 0 then 2 else if a = 1 then 0 else -1)
    else if b = 3 then (if a ≤ 1 then 10 else -1)
    else if b = 4 then (if 2 ≤ a ∧ a ≤ 3 then 5 else -1)
    else -1
  costSofar p t e := p + t + e

/-- Two-column breakage trellis for the path-optimality counterexample:
columns `{a}, {b}` with ids `0, 1`. -/
def cols2 : List (List ℕ) := [[0], [1]]

/-- Cost model of the two-column breakage trellis: zero emissions, the only
transition invalid. -/
def M2 : CostModel where
  emission _ := 0
  transition _ _ := -1
  costSofar p t e := p + t + e

/-- Mid-trellis unreachable column for the iterator claim: columns
`{a}, {x}, {c}` with ids `0, 1, 2`, where `x` has an invalid emission. -/
def cols6 : List (List ℕ) := [[0], [1], [2]]

/-- Cost model of the unreachable-column trellis. -/
def M6 : CostModel where
  emission s := if s = 1 then -1 else 0
  transition _ _ := 0
  costSofar p t e := p + t + e

/-- Single-column trellis for the beyond-the-columns query. -/
def cols7 : List (List ℕ) := [[0]]

/-- Cost model of the single-column trellis. -/
def M7 : CostModel where
  emission _ := 0
  transition _ _ := -1
  costSofar p t e := p + t + e

/-- Engine state after `SearchWinner(2)` on the breakage example `cols5`. -/
def st5final : LazyState :=
  ⟨[[], [], []], [some 0, some 1, some 2],
    [(2, ⟨1, 2, some 1⟩), (1, ⟨0, 1, none⟩), (0, ⟨0, 0, none⟩)], [], 3⟩

/-- Engine state after `SearchWinner(1)` on the two-column breakage trellis
`cols2`. -/
def st2final : LazyState :=
  ⟨[[], []], [some 0, some 1], [(1, ⟨0, 1, none⟩), (0, ⟨0, 0, none⟩)], [], 2⟩

/-- Engine state after `SearchWinner(2)` on the unreachable-column trellis
`cols6`. -/
def st6final : LazyState :=
  ⟨[[], [1], []], [some 0, none, some 2],
    [(2, ⟨0, 2, none⟩), (0, ⟨0, 0, none⟩)], [], 3⟩

/-- Engine state after `SearchWinner(1)` on the single-column trellis
`cols7`. -/
def st7final : LazyState :=
  ⟨[[]], [some 0], [(0, ⟨0, 0, none⟩)], [], 1⟩

/-- Well-formedness of the scanned map used by the iterator claims: every
scanned label is keyed by its own state and its predecessor (when present)
lives one time step earlier. -/
def ScannedOk (tm : ℕ → ℕ) (st : LazyState) : Prop :=
  ∀ pr ∈ st.scanned,
    pr.2.state = pr.1 ∧ ∀ p, pr.2.pred = some p → tm p + 1 = tm pr.2.state

/-- Well-formedness of the winner cache used by the iterator claims: the
winner recorded at index `i` is a state of time `i`. -/
def WinnerTimesOk (tm : ℕ → ℕ) (st : LazyState) : Prop :=
  ∀ i < st.winner.length, ∀ w, st.winner.getD i none = some w → tm w = i

/-- Strictly-better comparison of NAIVE costs under the engine polarity:
smaller when minimizing, larger when maximizing. -/
def betterCost (maximize : Bool) (a b : Option ℤ) : Bool :=
  if maximize then ncostLT maximize b a else ncostLT maximize a b

/-- Specification of `findWinner`: absent exactly when every label carries
the invalid sentinel, otherwise the state of a valid label no other label
strictly beats under the polarity order. -/
def OptimalWinner (maximize : Bool) (ls : List NLabel) : Option ℕ → Prop
  | none => ∀ l ∈ ls, l.costsofar = none
  | some s =>
    ∃ l ∈ ls, l.state = s ∧ l.costsofar ≠ none ∧
      ∀ m ∈ ls, betterCost maximize m.costsofar l.costsofar = false


/-- Valid-path reachability with accumulated cost: `ReachCost cols M t id c`
holds when some column-respecting path from column 0 of the trellis `cols`
reaches the state `id` in column `t` with every emission, transition and
intermediate accumulated cost valid (non-negative) and accumulated
`CostSofar` equal to `c`. -/
inductive ReachCost (cols : List (List ℕ)) (M : CostModel) : ℕ → ℕ → ℤ → Prop
  | base (id : ℕ) (hmem : id ∈ cols.getD 0 []) (he : 0 ≤ M.emission id) :
      ReachCost cols M 0 id (M.emission id)
  | step (t : ℕ) (p id : ℕ) (c : ℤ) (hp : ReachCost cols M t p c)
      (hmem : id ∈ cols.getD (t + 1) []) (he : 0 ≤ M.emission id)
      (htr : 0 ≤ M.transition p id)
      (hc : 0 ≤ M.costSofar c (M.transition p id) (M.emission id)) :
      ReachCost cols M (t + 1) id (M.costSofar c (M.transition p id) (M.emission id))

/-- Dijkstra invariant of a single LAZY search segment over the trellis
`cols` (states of column `t` at time `t` under `tm`), for engine states
reachable from the emission-seeded start of the segment.  The ids listed in
`ex` are exempt from the successor-expansion obligation `expanded` (between
a state's settlement and its `AddSuccessorsToQueue` call).  The fields say:
the engine has one unreached column per trellis column; every trellis state
is unreached or settled; the column below `earliest_time` that emptied last
stays empty; scanned keys are unique and settled in non-increasing cost
order (newest first); every queued label costs at least as much as every
settled one, is non-negative and is realized by a valid path; every settled
label is realized by a valid path and is minimal over all valid paths to
its state; every settled (non-exempt) state has offered each valid
successor a label no costlier than relaxing its own cost, unless that
successor's time is already below `earliest_time`; and every unsettled
column-0 state with a valid emission keeps an emission-cost label queued
until `earliest_time` first rises. -/
structure SegInvP (cols : List (List ℕ)) (M : CostModel) (tm : ℕ → ℕ)
    (ex : List ℕ) (st : LazyState) : Prop where
  len_eq : st.unreached.length = cols.length
  cols_split : ∀ t < cols.length, ∀ s ∈ cols.getD t [],
      s ∈ st.unreached.getD t [] ∨ (List.lookup s st.scanned).isSome = true
  unreached_sub : ∀ t, ∀ s ∈ st.unreached.getD t [], s ∈ cols.getD t []
  front_empty : 0 < st.earliest → st.unreached.getD (st.earliest - 1) [] = []
  keys_nodup : (st.scanned.map Prod.fst).Nodup
  scanned_desc : st.scanned.Pairwise (fun a b => b.2.costsofar ≤ a.2.costsofar)
  queue_ge : ∀ lb ∈ st.queue, ∀ pr ∈ st.scanned, pr.2.costsofar ≤ lb.costsofar
  queue_nonneg : ∀ lb ∈ st.queue, 0 ≤ lb.costsofar
  queue_reach : ∀ lb ∈ st.queue, ReachCost cols M (tm lb.state) lb.state lb.costsofar
  scanned_reach : ∀ pr ∈ st.scanned, ReachCost cols M (tm pr.1) pr.1 pr.2.costsofar
  scanned_min : ∀ pr ∈ st.scanned, ∀ c, ReachCost cols M (tm pr.1) pr.1 c →
      pr.2.costsofar ≤ c
  expanded : ∀ pr ∈ st.scanned, pr.1 ∉ ex →
      ∀ w ∈ cols.getD (tm pr.1 + 1) [],
        0 ≤ M.emission w → 0 ≤ M.transition pr.1 w →
        (∃ lw, List.lookup w st.scanned = some lw ∧
            lw.costsofar ≤
              M.costSofar pr.2.costsofar (M.transition pr.1 w) (M.emission w)) ∨
        (List.lookup w st.scanned = none ∧
          (tm w < st.earliest ∨
            ∃ lb ∈ st.queue, lb.state = w ∧
              lb.costsofar ≤
                M.costSofar pr.2.costsofar (M.transition pr.1 w) (M.emission w)))
  seeded : ∀ s ∈ cols.getD 0 [], List.lookup s st.scanned = none →
      0 ≤ M.emission s →
      0 < st.earliest ∨ ∃ lb ∈ st.queue, lb.state = s ∧ lb.costsofar ≤ M.emission s

/-- Start state of the first search segment: columns populated, nothing
settled, the queue seeded with emission-only labels from column 0 (what
`IterativeSearch` builds from a freshly populated engine). -/
def segStart (M : CostModel) (cols : List (List ℕ)) : LazyState :=
  ⟨cols, [], [], initQueue M (cols.getD 0 []), 0⟩

/-- Engine state after the first `IterativeSearch` (target 2) on the
breakage example `cols5`: only state 0 is settled, the search broke at the
invalid transition. -/
def st5seg : LazyState :=
  ⟨[[], [1], [2]], [some 0], [(0, ⟨0, 0, none⟩)], [], 1⟩


/-!
General lemmas about the engines.
-/

/-- A `SearchWinner` query below the winner-cache size returns the cached
entry and does not touch the engine. -/
theorem lazySearchWinner_cached (M : CostModel) (tm : ℕ → ℕ) (fuel t : ℕ)
    (st : LazyState) (h : t < st.winner.length) :
    lazySearchWinner M tm fuel t st = .ok (st.winner.getD t none, st) := by
  simp [lazySearchWinner, h]

/-- C5: on the three-column trellis `{a},{b},{c}` (ids `0,1,2`) with zero
emissions, `TransitionCost(a,b)` invalid, `TransitionCost(b,c) = 1` and
`CostSofar = prev + transition + emission`, the LAZY engine's
`SearchWinner(2)` returns `c`; the winner at time 1 is `b`, settled with the
emission-only cost 0; `predecessor(b)` is absent; `predecessor(c) = b`; and
iterating `SearchPath(2)` yields the states `[c, b, a]`. -/
theorem c5_breakage_end_to_end :
    lazySearchWinner M5 tmId 100 2 (initLazy cols5) = .ok (some 2, st5final) ∧
    st5final.winner.getD 1 none = some 1 ∧
    List.lookup 1 st5final.scanned = some ⟨0, 1, none⟩ ∧
    M5.emission 1 = 0 ∧
    lazyPredecessor st5final (some 1) = none ∧
    lazyPredecessor st5final (some 2) = some 1 ∧
    lazySearchPathIds M5 tmId 100 2 (initLazy cols5) =
      .ok ([some 2, some 1, some 0], st5final) := by
  decide

/-- C10: for any state id not present in the scanned map — and for the
invalid sentinel id, which is never a key — the LAZY engine's `predecessor`
returns the absent id and `AccumulatedCost` returns the invalid sentinel
`-1`; both are total functions of the engine state and, being `const` reads,
leave it unchanged. -/
theorem c10_unscanned_defaults (st : LazyState) (id : ℕ)
    (h : List.lookup id st.scanned = none) :
    lazyPredecessor st (some id) = none ∧
    lazyPredecessor st none = none ∧
    lazyAccumulatedCost st id = -1 := by
  refine ⟨?_, rfl, ?_⟩ <;> simp [lazyPredecessor, lazyAccumulatedCost, h]

/-- Witness for C10 at a concrete unscanned id. -/
theorem c10_witness :
    List.lookup 7 st5final.scanned = none ∧
    (lazyPredecessor st5final (some 7) = none ∧
     lazyPredecessor st5final none = none ∧
     lazyAccumulatedCost st5final 7 = -1) :=
  ⟨by decide, c10_unscanned_defaults st5final 7 (by decide)⟩

/-- C1 (code bug): on the two-engine cost model `M8` — which satisfies the
acceptance preconditions of both engines (all component costs non-negative,
`CostSofar(x, tr, e) = x + tr + e ≥ x` and monotone in `x`) — the NAIVE
engine with minimization polarity answers `SearchWinner(2) = e` (id 4) with
accumulated cost 6, while the LAZY engine's `SearchWinner(2)` dies with the
duplicate-settlement `logic_error`: a second, stale label for the already
settled state `c` (pushed while `c` was still unreached) pops past the
`earliest_time` filter.  The engines therefore do not agree. -/
theorem c1_engines_diverge (x y tr e : ℤ) (htr : 0 ≤ tr) (he : 0 ≤ e)
    (hxy : x ≤ y) :
    x ≤ M8.costSofar x tr e ∧
    M8.costSofar x tr e ≤ M8.costSofar y tr e ∧
    (naiveSearchWinner cols8 (toNModel M8) false ⟨[], []⟩ 2).1 = some 4 ∧
    naiveAccumulatedCost tm8 (naiveSearchWinner cols8 (toNModel M8) false ⟨[], []⟩ 2).2 4 =
      some (some 6) ∧
    lazySearchWinner M8 tm8 100 2 (initLazy cols8) = .error optimalityMsg := by
  refine ⟨?_, ?_, by decide, by decide, by decide⟩
  · show x ≤ x + tr + e
    linarith
  · show x + tr + e ≤ y + tr + e
    linarith

/-- Witness for C1 at concrete cost-model inputs. -/
theorem c1_witness :
    (0 : ℤ) ≤ 1 ∧ (0 : ℤ) ≤ 2 ∧ (3 : ℤ) ≤ 5 ∧
    ((3 : ℤ) ≤ M8.costSofar 3 1 2 ∧ M8.costSofar 3 1 2 ≤ M8.costSofar 5 1 2 ∧
     (naiveSearchWinner cols8 (toNModel M8) false ⟨[], []⟩ 2).1 = some 4 ∧
     naiveAccumulatedCost tm8 (naiveSearchWinner cols8 (toNModel M8) false ⟨[], []⟩ 2).2 4 =
       some (some 6) ∧
     lazySearchWinner M8 tm8 100 2 (initLazy cols8) = .error optimalityMsg) :=
  ⟨by decide, by decide, by decide,
    c1_engines_diverge 3 5 1 2 (by decide) (by decide) (by decide)⟩

/-- C2 counterexample: on the two-column trellis `{a},{b}` with zero
emissions and an invalid transition, `SearchWinner(1)` settles `b` through
the breakage restart with accumulated cost 0, yet the induced DAG restricted
to valid costs contains no path at all from any time-0 state to `b` — so the
settled cost is not the minimum `CostSofar` over such paths, which does not
exist. -/
theorem c2_counterexample :
    lazySearchWinner M2 tmId 100 1 (initLazy cols2) = .ok (some 1, st2final) ∧
    List.lookup 1 st2final.scanned = some ⟨0, 1, none⟩ ∧
    pathCostsTo cols2 M2 1 1 = [] ∧
    (pathCostsTo cols2 M2 1 1).min? ≠ some (lazyAccumulatedCost st2final 1) := by
  decide

/-- C6 counterexample: on the trellis `{a},{x},{c}` whose middle state has
an invalid emission, the winner cache after `SearchWinner(2)` is
`[a, absent, c]`; stepping the path iterator from `(c, 2)` (predecessor
absent, winner cache at time 1 absent) does not terminate: it moves to the
live invalid-id position `(absent, 1)`, which differs from the end sentinel,
and a further step resumes at the time-0 winner `a`, so the iteration yields
`[c, invalid, a]`. -/
theorem c6_counterexample :
    lazySearchWinner M6 tmId 100 2 (initLazy cols6) = .ok (some 2, st6final) ∧
    lazyPredecessor st6final (some 2) = none ∧
    st6final.winner.getD 1 none = none ∧
    lazyGoback M6 tmId 100 (.live (some 2) 2) st6final = .ok (.live none 1, st6final) ∧
    IterPos.live none 1 ≠ IterPos.stop ∧
    lazyGoback M6 tmId 100 (.live none 1) st6final = .ok (.live (some 0) 0, st6final) ∧
    lazySearchPathIds M6 tmId 100 2 (initLazy cols6) =
      .ok ([some 2, none, some 0], st6final) := by
  decide

/-- C7 counterexample: on a one-column trellis, the LAZY engine's
`SearchWinner(1)` — one past the number of columns — returns the absent id
but mutates the engine: it clamps the target to the last column and runs the
search, settling the single state. -/
theorem c7_counterexample :
    (initLazy cols7).unreached.length ≤ 1 ∧
    lazySearchWinner M7 (fun _ => 0) 100 1 (initLazy cols7) = .ok (none, st7final) ∧
    st7final ≠ initLazy cols7 := by
  decide

/-- C8 counterexample: the duplicate-settlement branch is reached by the
LAZY engine on the non-negative, monotone cost model `M8` (see
`c1_engines_diverge` for the precondition facts): `SearchWinner(2)` on the
`cols8` trellis terminates with the optimality-violation error even though
no negative effective edge exists. -/
theorem c8_counterexample :
    (∀ x tr e : ℤ, 0 ≤ tr → 0 ≤ e → x ≤ M8.costSofar x tr e) ∧
    (∀ x y tr e : ℤ, x ≤ y → M8.costSofar x tr e ≤ M8.costSofar y tr e) ∧
    lazySearchWinner M8 tm8 100 2 (initLazy cols8) = .error optimalityMsg := by
  refine ⟨?_, ?_, by decide⟩
  · intro x tr e h1 h2
    show x ≤ x + tr + e
    linarith
  · intro x y tr e h
    show x + tr + e ≤ y + tr + e
    linarith

/-- C8 amended, first half: popping for settlement a label whose id is
already a key of the scanned map (and whose time passes the `earliest_time`
filter) terminates the search with the optimality-violation `logic_error`. -/
theorem c8_duplicate_pop_fatal (tm : ℕ → ℕ) (st : LazyState) (l lab : LLabel)
    (htop : queueTop st.queue = some l) (hfresh : ¬ tm l.state < st.earliest)
    (hdup : List.lookup l.state st.scanned = some lab) :
    lazyPopStep tm st = .err optimalityMsg := by
  simp only [lazyPopStep, queuePop, htop, hfresh, hdup, if_false, Option.isSome_some,
    if_true]

/-- The polarity comparison is irreflexive. -/
theorem ncostLT_irrefl (mx : Bool) (a : Option ℤ) : ncostLT mx a a = false := by
  cases a <;> simp [ncostLT]

/-- The polarity comparison is asymmetric. -/
theorem ncostLT_asymm (mx : Bool) (a b : Option ℤ)
    (h : ncostLT mx a b = true) : ncostLT mx b a = false := by
  cases a <;> cases b <;> simp_all [ncostLT] <;> omega

/-- Linearity of the polarity comparison: a strict comparison factors
through any middle value. -/
theorem ncostLT_total_trans (mx : Bool) (a b c : Option ℤ)
    (h : ncostLT mx a c = true) :
    ncostLT mx a b = true ∨ ncostLT mx b c = true := by
  cases a <;> cases b <;> cases c <;> simp_all [ncostLT] <;> omega

/-- Strict betterness is irreflexive. -/
theorem betterCost_irrefl (mx : Bool) (a : Option ℤ) :
    betterCost mx a a = false := by
  cases mx <;> simp [betterCost, ncostLT_irrefl]

/-- Only the sentinel fails to beat the sentinel. -/
theorem betterCost_none_eq_false (mx : Bool) (a : Option ℤ)
    (h : betterCost mx a none = false) : a = none := by
  cases mx <;> cases a <;> simp_all [betterCost, ncostLT]

/-- `bestLabel` returns `none` only on the empty list. -/
theorem bestLabel_eq_none (mx : Bool) :
    ∀ ls : List NLabel, bestLabel mx ls = none ↔ ls = [] := by
  intro ls
  cases ls with
  | nil => simp [bestLabel]
  | cons l ls =>
    simp only [bestLabel]
    cases bestLabel mx ls <;> cases mx <;> simp <;> split <;> simp

/-- `bestLabel` returns a member of the list. -/
theorem bestLabel_mem (mx : Bool) :
    ∀ (ls : List NLabel) (m : NLabel), bestLabel mx ls = some m → m ∈ ls := by
  intro ls
  induction ls with
  | nil => intro m h; simp [bestLabel] at h
  | cons l ls ih =>
    intro m h
    simp only [bestLabel] at h
    cases hb : bestLabel mx ls with
    | none => rw [hb] at h; cases h; exact List.mem_cons_self _ _
    | some m1 =>
      rw [hb] at h
      cases mx <;> simp only [Bool.false_eq_true, if_false, if_true] at h <;>
        split at h <;> cases h <;>
          first
            | exact List.mem_cons_self _ _
            | exact List.mem_cons_of_mem _ (ih _ hb)

/-- No list member is strictly better than the `bestLabel` under the
polarity order. -/
theorem bestLabel_not_better (mx : Bool) :
    ∀ (ls : List NLabel) (m : NLabel), bestLabel mx ls = some m →
      ∀ l ∈ ls, betterCost mx l.costsofar m.costsofar = false := by
  intro ls
  induction ls with
  | nil => intro m h; simp [bestLabel] at h
  | cons l ls ih =>
    intro m h x hx
    simp only [bestLabel] at h
    cases hb : bestLabel mx ls with
    | none =>
      rw [hb] at h
      cases h
      rcases List.mem_cons.1 hx with hx | hx
      · rw [hx]; exact betterCost_irrefl mx _
      · have hnil : ls = [] := (bestLabel_eq_none mx ls).1 hb
        subst hnil
        simp at hx
    | some m1 =>
      rw [hb] at h
      cases mx with
      | false =>
        simp only [Bool.false_eq_true, if_false] at h
        by_cases hlt : ncostLT false m1.costsofar l.costsofar = true
        · rw [if_pos hlt] at h
          cases h
          rcases List.mem_cons.1 hx with hx | hx
          · rw [hx]
            simpa [betterCost] using ncostLT_asymm false _ _ hlt
          · exact ih _ hb _ hx
        · rw [if_neg hlt] at h
          cases h
          rcases List.mem_cons.1 hx with hx | hx
          · rw [hx]; exact betterCost_irrefl false _
          · simp only [betterCost, Bool.false_eq_true, if_false]
            by_contra hc
            rw [Bool.not_eq_false] at hc
            rcases ncostLT_total_trans false _ m1.costsofar _ hc with h1 | h1
            · have := ih _ hb _ hx
              simp only [betterCost, Bool.false_eq_true, if_false] at this
              rw [this] at h1; cases h1
            · exact hlt h1
      | true =>
        simp only [if_true] at h
        by_cases hlt : ncostLT true l.costsofar m1.costsofar = true
        · rw [if_pos hlt] at h
          cases h
          rcases List.mem_cons.1 hx with hx | hx
          · rw [hx]
            simpa [betterCost] using ncostLT_asymm true _ _ hlt
          · exact ih _ hb _ hx
        · rw [if_neg hlt] at h
          cases h
          rcases List.mem_cons.1 hx with hx | hx
          · rw [hx]; exact betterCost_irrefl true _
          · simp only [betterCost, if_true]
            by_contra hc
            rw [Bool.not_eq_false] at hc
            rcases ncostLT_total_trans true _ m1.costsofar _ hc with h1 | h1
            · exact hlt h1
            · have := ih _ hb _ hx
              simp only [betterCost, if_true] at this
              rw [this] at h1; cases h1

/-- `findWinner` meets its specification `OptimalWinner`. -/
theorem findWinner_optimal (mx : Bool) (ls : List NLabel) :
    OptimalWinner mx ls (findWinner mx ls) := by
  unfold findWinner
  cases hb : bestLabel mx ls with
  | none =>
    have : ls = [] := (bestLabel_eq_none mx ls).1 hb
    subst this
    intro l hl
    simp at hl
  | some m =>
    show OptimalWinner mx ls (if m.costsofar = none then none else some m.state)
    by_cases hc : m.costsofar = none
    · rw [if_pos hc]
      intro l hl
      exact betterCost_none_eq_false mx _ (hc ▸ bestLabel_not_better mx ls m hb l hl)
    · rw [if_neg hc]
      exact ⟨m, bestLabel_mem mx ls m hb, rfl, hc, bestLabel_not_better mx ls m hb⟩

/-- Both branches of `naiveStep` append exactly one winner entry and the
label vector it was found in. -/
theorem naiveStep_shape (cols : List (List ℕ)) (NM : NCostModel) (mx : Bool)
    (ns : NaiveState) :
    ∃ labels, naiveStep cols NM mx ns =
      ⟨ns.winner ++ [findWinner mx labels], ns.history ++ [labels]⟩ := by
  unfold naiveStep
  dsimp only
  split <;> split <;> exact ⟨_, rfl⟩

/-- `naiveStep` grows the winner cache by one entry. -/
theorem naiveStep_winner_length (cols : List (List ℕ)) (NM : NCostModel)
    (mx : Bool) (ns : NaiveState) :
    (naiveStep cols NM mx ns).winner.length = ns.winner.length + 1 := by
  obtain ⟨labels, h⟩ := naiveStep_shape cols NM mx ns
  rw [h]
  simp

/-- `naiveStep` only appends to the winner cache. -/
theorem naiveStep_winner_extend (cols : List (List ℕ)) (NM : NCostModel)
    (mx : Bool) (ns : NaiveState) :
    ∃ ext, (naiveStep cols NM mx ns).winner = ns.winner ++ ext := by
  obtain ⟨labels, h⟩ := naiveStep_shape cols NM mx ns
  exact ⟨_, by rw [h]⟩

/-- `naiveRun` grows the winner cache by exactly its iteration count. -/
theorem naiveRun_winner_length (cols : List (List ℕ)) (NM : NCostModel)
    (mx : Bool) :
    ∀ (n : ℕ) (ns : NaiveState),
      (naiveRun cols NM mx n ns).winner.length = ns.winner.length + n := by
  intro n
  induction n with
  | zero => intro ns; rfl
  | succ n ih =>
    intro ns
    show (naiveRun cols NM mx n (naiveStep cols NM mx ns)).winner.length = _
    rw [ih, naiveStep_winner_length]
    omega

/-- `naiveRun` only appends to the winner cache. -/
theorem naiveRun_winner_extend (cols : List (List ℕ)) (NM : NCostModel)
    (mx : Bool) :
    ∀ (n : ℕ) (ns : NaiveState),
      ∃ ext, (naiveRun cols NM mx n ns).winner = ns.winner ++ ext := by
  intro n
  induction n with
  | zero => intro ns; exact ⟨[], by simp [naiveRun]⟩
  | succ n ih =>
    intro ns
    obtain ⟨e1, h1⟩ := naiveStep_winner_extend cols NM mx ns
    obtain ⟨e2, h2⟩ := ih (naiveStep cols NM mx ns)
    exact ⟨e1 ++ e2, by show (naiveRun cols NM mx n _).winner = _; rw [h2, h1, List.append_assoc]⟩

/-- `NaiveViterbiSearch::SearchWinner` beyond the populated columns returns
the absent id without touching the engine. -/
theorem naiveSearchWinner_beyond (cols : List (List ℕ)) (NM : NCostModel)
    (mx : Bool) (ns : NaiveState) (t : ℕ) (h : cols.length ≤ t) :
    naiveSearchWinner cols NM mx ns t = (none, ns) := by
  simp [naiveSearchWinner, h]

/-- `NaiveViterbiSearch::SearchWinner` within the populated columns: the
winner cache is only appended to, afterwards covers the queried time, and
the returned value is the cached entry at that time. -/
theorem naiveSearchWinner_spec (cols : List (List ℕ)) (NM : NCostModel)
    (mx : Bool) (ns : NaiveState) (t : ℕ) (h : t < cols.length) :
    (∃ ext, (naiveSearchWinner cols NM mx ns t).2.winner = ns.winner ++ ext) ∧
    t < (naiveSearchWinner cols NM mx ns t).2.winner.length ∧
    (naiveSearchWinner cols NM mx ns t).1 =
      (naiveSearchWinner cols NM mx ns t).2.winner.getD t none := by
  unfold naiveSearchWinner
  rw [if_neg (by omega)]
  by_cases hc : t < ns.winner.length
  · rw [if_pos hc]
    exact ⟨⟨[], by simp⟩, hc, rfl⟩
  · rw [if_neg hc]
    refine ⟨naiveRun_winner_extend cols NM mx _ ns, ?_, rfl⟩
    rw [naiveRun_winner_length]
    omega

/-- C4: in the NAIVE engine at a time `t > 0`, when the Bellman-relaxed
labels of the column contain no valid cost, `SearchWinner` re-initializes
the column's labels from emission costs only (all predecessors absent) and
records the best such label's state as the winner; and in every case the
recorded winner is optimal among the recorded labels whose cost is not the
invalid sentinel (absent exactly when there is no valid label). -/
theorem c4_restart_from_emission (cols : List (List ℕ)) (NM : NCostModel)
    (mx : Bool) (ns : NaiveState) (hpos : 0 < ns.winner.length) :
    (findWinner mx (updateLabels NM mx
        (initLabels NM (cols.getD ns.winner.length []) false)
        (ns.history.getLastD [])) = none →
      naiveStep cols NM mx ns =
        ⟨ns.winner ++ [findWinner mx (initLabels NM (cols.getD ns.winner.length []) true)],
         ns.history ++ [initLabels NM (cols.getD ns.winner.length []) true]⟩ ∧
      (∀ l ∈ initLabels NM (cols.getD ns.winner.length []) true, l.pred = none)) ∧
    OptimalWinner mx ((naiveStep cols NM mx ns).history.getLastD [])
      ((naiveStep cols NM mx ns).winner.getLastD none) := by
  constructor
  · intro hnone
    constructor
    · have hne : ¬ ns.winner.length = 0 := by omega
      unfold naiveStep
      dsimp only
      rw [if_neg hne, if_pos ⟨hnone, hpos⟩]
    · intro l hl
      simp only [initLabels, List.mem_map] at hl
      obtain ⟨s, _, rfl⟩ := hl
      rfl
  · obtain ⟨labels, h⟩ := naiveStep_shape cols NM mx ns
    rw [h]
    simp only [List.getLastD_concat]
    exact findWinner_optimal mx labels

/-- Witness for C4 on the two-column breakage trellis after one step. -/
theorem c4_witness :
    0 < (naiveRun cols2 (toNModel M2) false 1 ⟨[], []⟩).winner.length ∧
    (findWinner false (updateLabels (toNModel M2) false
        (initLabels (toNModel M2)
          (cols2.getD (naiveRun cols2 (toNModel M2) false 1 ⟨[], []⟩).winner.length []) false)
        ((naiveRun cols2 (toNModel M2) false 1 ⟨[], []⟩).history.getLastD [])) = none →
      naiveStep cols2 (toNModel M2) false (naiveRun cols2 (toNModel M2) false 1 ⟨[], []⟩) =
        ⟨(naiveRun cols2 (toNModel M2) false 1 ⟨[], []⟩).winner ++
            [findWinner false (initLabels (toNModel M2)
              (cols2.getD (naiveRun cols2 (toNModel M2) false 1 ⟨[], []⟩).winner.length []) true)],
         (naiveRun cols2 (toNModel M2) false 1 ⟨[], []⟩).history ++
            [initLabels (toNModel M2)
              (cols2.getD (naiveRun cols2 (toNModel M2) false 1 ⟨[], []⟩).winner.length []) true]⟩ ∧
      (∀ l ∈ initLabels (toNModel M2)
          (cols2.getD (naiveRun cols2 (toNModel M2) false 1 ⟨[], []⟩).winner.length []) true,
        l.pred = none)) ∧
    OptimalWinner false
      ((naiveStep cols2 (toNModel M2) false (naiveRun cols2 (toNModel M2) false 1 ⟨[], []⟩)).history.getLastD [])
      ((naiveStep cols2 (toNModel M2) false (naiveRun cols2 (toNModel M2) false 1 ⟨[], []⟩)).winner.getLastD none) :=
  ⟨by decide,
    c4_restart_from_emission cols2 (toNModel M2) false
      (naiveRun cols2 (toNModel M2) false 1 ⟨[], []⟩) (by decide)⟩

/-- Witness for the amended C8 at a concrete duplicated label. -/
theorem c8_witness :
    queueTop [(⟨0, 0, none⟩ : LLabel)] = some ⟨0, 0, none⟩ ∧
    ¬ tmId (0 : ℕ) < 0 ∧
    List.lookup 0 [((0 : ℕ), (⟨0, 0, none⟩ : LLabel))] = some ⟨0, 0, none⟩ ∧
    lazyPopStep tmId ⟨[[0], [1]], [], [(0, ⟨0, 0, none⟩)], [⟨0, 0, none⟩], 0⟩ =
      .err optimalityMsg :=
  ⟨by decide, by decide, by decide,
    c8_duplicate_pop_fatal tmId ⟨[[0], [1]], [], [(0, ⟨0, 0, none⟩)], [⟨0, 0, none⟩], 0⟩
      ⟨0, 0, none⟩ ⟨0, 0, none⟩ (by decide) (by decide) (by decide)⟩

/-- Setting an index below the length and reading it back with `getD`. -/
theorem getD_set_self :
    ∀ (l : List (List ℕ)) (n : ℕ) (v : List ℕ), n < l.length →
      (l.set n v).getD n [] = v := by
  intro l
  induction l with
  | nil => intro n v h; simp at h
  | cons x xs ih =>
    intro n v h
    cases n with
    | zero => rfl
    | succ n => exact ih n v (by simpa using h)

/-- `removeFirst` only succeeds on a list containing the id. -/
theorem removeFirst_isSome :
    ∀ (id : ℕ) (l : List ℕ) (col : List ℕ), removeFirst id l = some col → l ≠ [] := by
  intro id l col h hnil
  subst hnil
  simp [removeFirst] at h

/-- A successful `removeFirst` on a `getD`-read column bounds the index. -/
theorem removeFirst_getD_lt (id : ℕ) (l : List (List ℕ)) (n : ℕ) (col : List ℕ)
    (h : removeFirst id (l.getD n []) = some col) : n < l.length := by
  by_contra hc
  rw [List.getD_eq_default _ _ (by omega)] at h
  simp [removeFirst] at h

/-- `padWinner` leaves every field but the winner cache unchanged and only
appends to the winner cache. -/
theorem padWinner_fields (st : LazyState) (s : ℕ) :
    (padWinner st s).unreached = st.unreached ∧
    (padWinner st s).scanned = st.scanned ∧
    (padWinner st s).earliest = st.earliest ∧
    (∃ ext, (padWinner st s).winner = st.winner ++ ext) :=
  ⟨rfl, rfl, rfl, _, rfl⟩

/-- Length of the padded winner cache. -/
theorem padWinner_length (st : LazyState) (s : ℕ) (h : st.winner.length ≤ s + 1) :
    (padWinner st s).winner.length = s + 1 := by
  simp only [padWinner, List.length_append, List.length_replicate]
  omega

/-- Facts preserved by a settlement step of the LAZY main loop: the number
of columns, monotonicity of `earliest_time`, append-only growth of the
winner cache (by the settled state exactly when it is the first arrival at
its time), the new winner-cache length, the bound on the settled time, and
the `earliest_time` update rule (raised to `time + 1` exactly when the
settled state's column became empty). -/
theorem lazyPopStep_settled (tm : ℕ → ℕ) (st st1 : LazyState) (id : ℕ)
    (h : lazyPopStep tm st = .settled st1 id) :
    st1.unreached.length = st.unreached.length ∧
    st.earliest ≤ st1.earliest ∧
    (st1.winner = st.winner ∨ st1.winner = st.winner ++ [some id]) ∧
    st1.winner.length = max st.winner.length (tm id + 1) ∧
    tm id < st.unreached.length ∧
    st1.earliest = (if st1.unreached.getD (tm id) [] = [] then tm id + 1 else st.earliest) := by
  unfold lazyPopStep at h
  cases hq : queuePop st.queue with
  | none => rw [hq] at h; simp at h
  | some p =>
    obtain ⟨l, q⟩ := p
    rw [hq] at h
    dsimp only at h
    by_cases h1 : tm l.state < st.earliest
    · rw [if_pos h1] at h; simp at h
    · rw [if_neg h1] at h
      by_cases h2 : (List.lookup l.state st.scanned).isSome = true
      · rw [if_pos h2] at h; simp at h
      · rw [if_neg h2] at h
        cases hr : removeFirst l.state (st.unreached.getD (tm l.state) []) with
        | none => rw [hr] at h; simp at h
        | some col =>
          rw [hr] at h
          have hlt : tm l.state < st.unreached.length :=
            removeFirst_getD_lt _ _ _ _ hr
          dsimp only at h
          by_cases hcol : col = []
          · rw [if_pos hcol] at h
            by_cases hw : st.winner.length ≤ tm l.state
            · rw [if_pos hw] at h
              by_cases hw2 : tm l.state = st.winner.length
              · rw [if_pos hw2] at h
                injection h with h3 h4
                subst h3
                subst h4
                refine ⟨by simp, by dsimp only; omega, Or.inr rfl,
                  by dsimp only; simp; omega, hlt, ?_⟩
                dsimp only
                rw [getD_set_self _ _ _ hlt, if_pos hcol]
              · rw [if_neg hw2] at h; simp at h
            · rw [if_neg hw] at h
              injection h with h3 h4
              subst h3
              subst h4
              refine ⟨by simp, by dsimp only; omega, Or.inl rfl,
                by dsimp only; omega, hlt, ?_⟩
              dsimp only
              rw [getD_set_self _ _ _ hlt, if_pos hcol]
          · rw [if_neg hcol] at h
            by_cases hw : st.winner.length ≤ tm l.state
            · rw [if_pos hw] at h
              by_cases hw2 : tm l.state = st.winner.length
              · rw [if_pos hw2] at h
                injection h with h3 h4
                subst h3
                subst h4
                refine ⟨by simp, by dsimp only; omega, Or.inr rfl,
                  by dsimp only; simp; omega, hlt, ?_⟩
                dsimp only
                rw [getD_set_self _ _ _ hlt, if_neg hcol]
              · rw [if_neg hw2] at h; simp at h
            · rw [if_neg hw] at h
              injection h with h3 h4
              subst h3
              subst h4
              refine ⟨by simp, by dsimp only; omega, Or.inl rfl,
                by dsimp only; omega, hlt, ?_⟩
              dsimp only
              rw [getD_set_self _ _ _ hlt, if_neg hcol]

/-- A stale label (time before `earliest_time`) is discarded: only the queue
changes, nothing is scanned and no cache is touched. -/
theorem lazyPopStep_discard_char (tm : ℕ → ℕ) (st : LazyState) (l : LLabel)
    (htop : queueTop st.queue = some l) (hstale : tm l.state < st.earliest) :
    lazyPopStep tm st = .discarded { st with queue := queueRemove l st.queue } := by
  unfold lazyPopStep queuePop
  rw [htop]
  dsimp only
  rw [if_pos hstale]

/-- A discarded step leaves every field but the queue unchanged. -/
theorem lazyPopStep_discarded (tm : ℕ → ℕ) (st st1 : LazyState)
    (h : lazyPopStep tm st = .discarded st1) :
    st1.unreached = st.unreached ∧ st1.winner = st.winner ∧
    st1.scanned = st.scanned ∧ st1.earliest = st.earliest := by
  unfold lazyPopStep at h
  cases hq : queuePop st.queue with
  | none => rw [hq] at h; simp at h
  | some p =>
    obtain ⟨l, q⟩ := p
    rw [hq] at h
    dsimp only at h
    by_cases h1 : tm l.state < st.earliest
    · rw [if_pos h1] at h
      injection h with h2
      subst h2
      exact ⟨rfl, rfl, rfl, rfl⟩
    · rw [if_neg h1] at h
      by_cases h2 : (List.lookup l.state st.scanned).isSome = true
      · rw [if_pos h2] at h; simp at h
      · rw [if_neg h2] at h
        cases hr : removeFirst l.state (st.unreached.getD (tm l.state) []) with
        | none => rw [hr] at h; simp at h
        | some col =>
          rw [hr] at h
          dsimp only at h
          split at h <;> split at h <;> (try split at h) <;> simp at h

/-- `AddSuccessorsToQueue` only pushes onto the queue: all other fields of
the engine are unchanged. -/
theorem addSuccessorsToQueue_ok (M : CostModel) (tm : ℕ → ℕ) (st : LazyState)
    (s : ℕ) (st1 : LazyState) (h : addSuccessorsToQueue M tm st s = .ok st1) :
    st1.unreached = st.unreached ∧ st1.winner = st.winner ∧
    st1.scanned = st.scanned ∧ st1.earliest = st.earliest := by
  unfold addSuccessorsToQueue at h
  split at h
  · cases hl : List.lookup s st.scanned with
    | none => rw [hl] at h; simp at h
    | some lab =>
      rw [hl] at h
      dsimp only at h
      split at h
      · simp at h
      · injection h with h1
        subst h1
        exact ⟨rfl, rfl, rfl, rfl⟩
  · simp at h

/-- Invariants of the LAZY main loop: the number of columns is preserved,
`earliest_time` never decreases, the winner cache only grows, the returned
`searched_time` dominates its starting value and (unless untouched) stays
within the columns, and the winner-cache length stays within `searched + 1`
and within the number of columns. -/
theorem lazyLoop_ok (M : CostModel) (tm : ℕ → ℕ) :
    ∀ (fuel target searched : ℕ) (st : LazyState) (s : ℕ) (st1 : LazyState),
      lazyLoop M tm fuel target searched st = .ok (s, st1) →
      st1.unreached.length = st.unreached.length ∧
      st.earliest ≤ st1.earliest ∧
      (∃ ext, st1.winner = st.winner ++ ext) ∧
      searched ≤ s ∧
      (s = searched ∨ s < st.unreached.length) ∧
      (st.winner.length ≤ searched + 1 → st1.winner.length ≤ s + 1) ∧
      (st.winner.length ≤ st.unreached.length →
        st1.winner.length ≤ st1.unreached.length) := by
  intro fuel
  induction fuel with
  | zero =>
    intro target searched st s st1 h
    simp [lazyLoop] at h
  | succ fuel ih =>
    intro target searched st s st1 h
    simp only [lazyLoop] at h
    cases hp : lazyPopStep tm st with
    | empty =>
      rw [hp] at h
      injection h with h1
      injection h1 with h2 h3
      subst h2
      subst h3
      exact ⟨rfl, le_refl _, ⟨[], by simp⟩, le_refl _, Or.inl rfl,
        fun hw => by omega, fun hw => hw⟩
    | discarded st2 =>
      rw [hp] at h
      obtain ⟨e1, e2, e3, e4⟩ := lazyPopStep_discarded tm st st2 hp
      obtain ⟨d1, d2, d3, d4, d5, d6, d7⟩ := ih target searched st2 s st1 h
      refine ⟨by rw [d1, e1], by rw [← e4]; exact d2, ?_, d4, ?_, ?_, ?_⟩
      · obtain ⟨ext, hext⟩ := d3
        exact ⟨ext, by rw [hext, e2]⟩
      · rcases d5 with d5 | d5
        · exact Or.inl d5
        · exact Or.inr (by rw [← e1]; exact d5)
      · intro hw
        exact d6 (by rw [e2]; exact hw)
      · intro hw
        exact d7 (by rw [e1, e2]; exact hw)
    | err m =>
      rw [hp] at h
      simp at h
    | settled st2 id =>
      rw [hp] at h
      dsimp only at h
      obtain ⟨a1, a2, a3, a4, a5, a6⟩ := lazyPopStep_settled tm st st2 id hp
      by_cases hbr : target ≤ max (tm id) searched
      · rw [if_pos hbr] at h
        injection h with h1
        injection h1 with h2 h3
        subst h2
        subst h3
        refine ⟨a1, a2, ?_, le_max_right _ _, ?_, fun hw => by omega, fun hw => by omega⟩
        · rcases a3 with a3 | a3
          · exact ⟨[], by simp [a3]⟩
          · exact ⟨[some id], a3⟩
        · rcases Nat.le_total (tm id) searched with hmax | hmax
          · exact Or.inl (by omega)
          · exact Or.inr (by omega)
      · rw [if_neg hbr] at h
        cases ha : addSuccessorsToQueue M tm st2 id with
        | error m => rw [ha] at h; simp at h
        | ok st3 =>
          rw [ha] at h
          obtain ⟨c1, c2, c3, c4⟩ := addSuccessorsToQueue_ok M tm st2 id st3 ha
          obtain ⟨d1, d2, d3, d4, d5, d6, d7⟩ := ih target (max (tm id) searched) st3 s st1 h
          have hlen3 : st3.unreached.length = st.unreached.length := by rw [c1, a1]
          refine ⟨by rw [d1, hlen3], by rw [c4] at d2; omega, ?_, by omega, ?_, ?_, ?_⟩
          · obtain ⟨ext, hext⟩ := d3
            rcases a3 with a3 | a3
            · exact ⟨ext, by rw [hext, c2, a3]⟩
            · exact ⟨[some id] ++ ext, by rw [hext, c2, a3, List.append_assoc]⟩
          · rcases d5 with d5 | d5
            · rcases Nat.le_total (tm id) searched with hmax | hmax
              · exact Or.inl (by omega)
              · exact Or.inr (by omega)
            · exact Or.inr (by omega)
          · intro hw
            refine d6 ?_
            rw [c2, a4]
            omega
          · intro hw
            refine d7 ?_
            rw [c2, a4, c1, a1]
            omega

/-- Invariants of one `IterativeSearch` call: the target is within the
columns, the number of columns is preserved, `earliest_time` never
decreases, the winner cache only grows and its length stays within the
number of columns; the call either returns from the winner cache untouched
(target already searched) or leaves the winner cache of length exactly
`searched_time + 1` with `searched_time` within the columns. -/
theorem iterativeSearch_ok (M : CostModel) (tm : ℕ → ℕ) (fuel target : ℕ)
    (reqNew : Bool) (st : LazyState) (s : ℕ) (st1 : LazyState)
    (h : iterativeSearch M tm fuel target reqNew st = .ok (s, st1)) :
    target < st.unreached.length ∧
    st1.unreached.length = st.unreached.length ∧
    st.earliest ≤ st1.earliest ∧
    (∃ ext, st1.winner = st.winner ++ ext) ∧
    (st.winner.length ≤ st.unreached.length →
      st1.winner.length ≤ st1.unreached.length) ∧
    st1.winner.length ≤ max st.winner.length (s + 1) ∧
    ((s = target ∧ st1 = st ∧ target < st.winner.length) ∨
     (st.winner.length ≤ target ∧ st1.winner.length = s + 1 ∧
       s < st.unreached.length)) := by
  unfold iterativeSearch at h
  by_cases h0 : st.unreached.length ≤ target
  · rw [if_pos h0] at h
    simp at h
  · rw [if_neg h0] at h
    refine And.intro (by omega) ?_
    by_cases h1 : target < st.winner.length
    · rw [if_pos h1] at h
      injection h with hh
      injection hh with h2 h3
      subst h2
      subst h3
      exact ⟨rfl, le_refl _, ⟨[], by simp⟩, fun hw => hw, le_max_left _ _,
        Or.inl ⟨rfl, rfl, h1⟩⟩
    · rw [if_neg h1] at h
      dsimp only at h
      cases hcont : (if reqNew then none
          else
            match st.winner.getLast? with
            | some (some w) => some w
            | _ => none : Option ℕ) with
      | some w =>
        rw [hcont] at h
        dsimp only at h
        have hlast : st.winner.getLast? = some (some w) := by
          cases reqNew with
          | true => simp at hcont
          | false =>
            simp only [Bool.false_eq_true, if_false] at hcont
            cases hgl : st.winner.getLast? with
            | none => rw [hgl] at hcont; simp at hcont
            | some o =>
              cases o with
              | none => rw [hgl] at hcont; simp at hcont
              | some w2 => rw [hgl] at hcont; injection hcont with hw2; rw [hw2]
        have hne : st.winner ≠ [] := by
          intro hnil
          rw [hnil] at hlast
          simp at hlast
        have hlen1 : 1 ≤ st.winner.length := by
          cases hw : st.winner with
          | nil => exact absurd hw hne
          | cons a l => simp [hw]
        cases ha : addSuccessorsToQueue M tm st w with
        | error m => rw [ha] at h; simp at h
        | ok stq =>
          rw [ha] at h
          dsimp only at h
          cases hl : lazyLoop M tm fuel target (st.winner.length - 1) stq with
          | error m => rw [hl] at h; simp at h
          | ok p =>
            obtain ⟨sl, st2⟩ := p
            rw [hl] at h
            injection h with hh
            injection hh with h2 h3
            subst h2
            subst h3
            obtain ⟨c1, c2, c3, c4⟩ := addSuccessorsToQueue_ok M tm st w stq ha
            obtain ⟨d1, d2, d3, d4, d5, d6, d7⟩ :=
              lazyLoop_ok M tm fuel target (st.winner.length - 1) stq sl st2 hl
            have hst2len : st2.winner.length ≤ sl + 1 := by
              refine d6 ?_
              rw [c2]
              omega
            have hslt : sl < st.unreached.length := by
              rcases d5 with d5 | d5
              · omega
              · rw [c1] at d5; omega
            obtain ⟨ext2, hext2⟩ := d3
            refine ⟨?_, ?_, ?_, ?_, ?_, ?_⟩
            · rw [(padWinner_fields st2 sl).1, d1, c1]
            · rw [(padWinner_fields st2 sl).2.2.1, ← c4]
              exact d2
            · obtain ⟨ext3, hext3⟩ := (padWinner_fields st2 sl).2.2.2
              exact ⟨ext2 ++ ext3, by rw [hext3, hext2, c2, List.append_assoc]⟩
            · intro hw
              rw [(padWinner_fields st2 sl).1, d1, c1, padWinner_length st2 sl hst2len]
              omega
            · rw [padWinner_length st2 sl hst2len]
              exact le_max_right _ _
            · exact Or.inr ⟨by omega, padWinner_length st2 sl hst2len, hslt⟩
      | none =>
        rw [hcont] at h
        dsimp only at h
        cases hl : lazyLoop M tm fuel target st.winner.length
            { st with queue := initQueue M (st.unreached.getD st.winner.length []) } with
        | error m => rw [hl] at h; simp at h
        | ok p =>
          obtain ⟨sl, st2⟩ := p
          rw [hl] at h
          injection h with hh
          injection hh with h2 h3
          subst h2
          subst h3
          obtain ⟨d1, d2, d3, d4, d5, d6, d7⟩ :=
            lazyLoop_ok M tm fuel target st.winner.length _ sl st2 hl
          dsimp only at d1 d2 d3 d5 d6 d7
          have hst2len : st2.winner.length ≤ sl + 1 := d6 (by omega)
          have hslt : sl < st.unreached.length := by
            rcases d5 with d5 | d5 <;> omega
          obtain ⟨ext2, hext2⟩ := d3
          refine ⟨?_, ?_, ?_, ?_, ?_, ?_⟩
          · rw [(padWinner_fields st2 sl).1, d1]
          · rw [(padWinner_fields st2 sl).2.2.1]
            exact d2
          · obtain ⟨ext3, hext3⟩ := (padWinner_fields st2 sl).2.2.2
            exact ⟨ext2 ++ ext3, by rw [hext3, hext2, List.append_assoc]⟩
          · intro hw
            rw [(padWinner_fields st2 sl).1, d1, padWinner_length st2 sl hst2len]
            omega
          · rw [padWinner_length st2 sl hst2len]
            exact le_max_right _ _
          · exact Or.inr ⟨by omega, padWinner_length st2 sl hst2len, hslt⟩

/-- Invariants of the restart loop of `SearchWinner`: columns preserved,
`earliest_time` monotone, winner cache append-only and within the number of
columns, the returned `searched_time` reaches the target, and on exit the
engine is either untouched or its winner cache covers the target. -/
theorem swLoop_ok (M : CostModel) (tm : ℕ → ℕ) (fuelI : ℕ) :
    ∀ (fuelW target searched : ℕ) (st : LazyState) (s : ℕ) (st1 : LazyState),
      swLoop M tm fuelI fuelW target searched st = .ok (s, st1) →
      st1.unreached.length = st.unreached.length ∧
      st.earliest ≤ st1.earliest ∧
      (∃ ext, st1.winner = st.winner ++ ext) ∧
      (st.winner.length ≤ st.unreached.length →
        st1.winner.length ≤ st1.unreached.length) ∧
      searched ≤ s ∧
      target ≤ s ∧
      (s = searched ∨ s < st.unreached.length) ∧
      st1.winner.length ≤ max st.winner.length (s + 1) ∧
      ((s = searched ∧ st1 = st) ∨ target < st1.winner.length ∨
        st1.winner.length = s + 1) := by
  intro fuelW
  induction fuelW with
  | zero =>
    intro target searched st s st1 h
    simp only [swLoop] at h
    by_cases hc : searched < target
    · rw [if_pos hc] at h; simp at h
    · rw [if_neg hc] at h
      injection h with hh
      injection hh with h2 h3
      subst h2
      subst h3
      exact ⟨rfl, le_refl _, ⟨[], by simp⟩, fun hw => hw, le_refl _, by omega,
        Or.inl rfl, le_max_left _ _, Or.inl ⟨rfl, rfl⟩⟩
  | succ fuelW ih =>
    intro target searched st s st1 h
    simp only [swLoop] at h
    by_cases hc : searched < target
    · rw [if_pos hc] at h
      cases hi : iterativeSearch M tm fuelI target true st with
      | error m => rw [hi] at h; simp at h
      | ok p =>
        obtain ⟨s2, st2⟩ := p
        rw [hi] at h
        obtain ⟨e0, e1, e2, e3, e4, e5, e6⟩ :=
          iterativeSearch_ok M tm fuelI target true st s2 st2 hi
        obtain ⟨d1, d2, d3, d4, d5, d6, d7, d8, d9⟩ := ih target s2 st2 s st1 h
        refine ⟨by rw [d1, e1], le_trans e2 d2, ?_, ?_, by omega, d6, ?_, ?_, ?_⟩
        · obtain ⟨x1, hx1⟩ := e3
          obtain ⟨x2, hx2⟩ := d3
          exact ⟨x1 ++ x2, by rw [hx2, hx1, List.append_assoc]⟩
        · intro hw
          exact d4 (e4 hw)
        · refine Or.inr ?_
          rcases d7 with d7 | d7
          · subst d7
            rcases e6 with ⟨hs2, _, _⟩ | ⟨_, _, hlt⟩
            · omega
            · exact hlt
          · rw [e1] at d7
            exact d7
        · rcases e6 with ⟨_, hstst, _⟩ | ⟨_, hlen, _⟩
          · rw [hstst] at d8
            exact d8
          · rw [hlen] at d8
            omega
        · rcases d9 with ⟨hd1, hd2⟩ | hd | hd
          · subst hd1
            subst hd2
            rcases e6 with ⟨hs2, hstst, htlt⟩ | ⟨_, hlen, _⟩
            · subst hstst
              exact Or.inr (Or.inl htlt)
            · exact Or.inr (Or.inr hlen)
          · exact Or.inr (Or.inl hd)
          · exact Or.inr (Or.inr hd)
    · rw [if_neg hc] at h
      injection h with hh
      injection hh with h2 h3
      subst h2
      subst h3
      exact ⟨rfl, le_refl _, ⟨[], by simp⟩, fun hw => hw, le_refl _, by omega,
        Or.inl rfl, le_max_left _ _, Or.inl ⟨rfl, rfl⟩⟩

/-- `SearchWinner` on an empty trellis (with nothing cached) returns the
absent id and does not touch the engine. -/
theorem lazySearchWinner_noop_empty (M : CostModel) (tm : ℕ → ℕ)
    (fuel t : ℕ) (st : LazyState) (h1 : st.unreached = [])
    (h2 : st.winner.length ≤ t) :
    lazySearchWinner M tm fuel t st = .ok (none, st) := by
  unfold lazySearchWinner
  rw [if_neg (by omega)]
  rw [h1]
  rfl

/-- `SearchWinner` past the columns on a fully searched engine (winner cache
as long as the columns): returns the absent id and does not touch the
engine (the clamped target hits the cached branch of `IterativeSearch`). -/
theorem lazySearchWinner_noop_full (M : CostModel) (tm : ℕ → ℕ)
    (fuel t : ℕ) (st : LazyState)
    (hfull : st.winner.length = st.unreached.length)
    (hne : st.unreached ≠ []) (hbig : st.unreached.length ≤ t) :
    lazySearchWinner M tm fuel t st = .ok (none, st) := by
  have hlen0 : 0 < st.unreached.length := by
    cases hu : st.unreached with
    | nil => exact absurd hu hne
    | cons a l => simp [hu]
  unfold lazySearchWinner
  rw [if_neg (by omega), if_neg (by simp [List.isEmpty_iff]; exact hne)]
  have htar : min t (st.unreached.length - 1) = st.unreached.length - 1 := by omega
  rw [htar]
  dsimp only
  have hiter : iterativeSearch M tm fuel (st.unreached.length - 1) false st =
      .ok (st.unreached.length - 1, st) := by
    unfold iterativeSearch
    rw [if_neg (by omega), if_pos (by omega)]
  rw [hiter]
  dsimp only
  have hsw : swLoop M tm fuel fuel (st.unreached.length - 1)
      (st.unreached.length - 1) st = .ok (st.unreached.length - 1, st) := by
    cases fuel with
    | zero => simp only [swLoop]; rw [if_neg (by omega)]
    | succ n => simp only [swLoop]; rw [if_neg (by omega)]
  rw [hsw]
  dsimp only
  rw [if_neg (by omega)]

/-- Invariants of one `SearchWinner` call that returns normally: columns
preserved, `earliest_time` monotone, winner cache append-only and within the
number of columns; and the four observable cases — cached answer (no
mutation), empty trellis (no mutation), in-columns query (afterwards the
winner cache covers the queried time and the answer is its entry there), and
beyond-columns query (the answer is absent and the search has filled the
winner cache up to the last column). -/
theorem lazySearchWinner_ok (M : CostModel) (tm : ℕ → ℕ) (fuel t : ℕ)
    (st : LazyState) (r : Option ℕ) (st1 : LazyState)
    (h : lazySearchWinner M tm fuel t st = .ok (r, st1)) :
    st1.unreached.length = st.unreached.length ∧
    st.earliest ≤ st1.earliest ∧
    (∃ ext, st1.winner = st.winner ++ ext) ∧
    (st.winner.length ≤ st.unreached.length →
      st1.winner.length ≤ st1.unreached.length) ∧
    ((t < st.winner.length ∧ st1 = st ∧ r = st.winner.getD t none) ∨
     (st.winner.length ≤ t ∧ st.unreached = [] ∧ st1 = st ∧ r = none) ∨
     (st.winner.length ≤ t ∧ t < st.unreached.length ∧ t < st1.winner.length ∧
       r = st1.winner.getD t none) ∨
     (st.winner.length ≤ t ∧ st.unreached ≠ [] ∧ st.unreached.length ≤ t ∧
       r = none ∧
       (st.winner.length ≤ st.unreached.length →
         st1.winner.length = st.unreached.length))) := by
  unfold lazySearchWinner at h
  by_cases h1 : t < st.winner.length
  · rw [if_pos h1] at h
    injection h with hh
    injection hh with h3 h4
    subst h3
    subst h4
    exact ⟨rfl, le_refl _, ⟨[], by simp⟩, fun hw => hw, Or.inl ⟨h1, rfl, rfl⟩⟩
  · rw [if_neg h1] at h
    by_cases h2 : st.unreached.isEmpty = true
    · rw [if_pos h2] at h
      injection h with hh
      injection hh with h3 h4
      subst h3
      subst h4
      have hemp : st.unreached = [] := by
        cases hu : st.unreached with
        | nil => rfl
        | cons a l => rw [hu] at h2; simp [List.isEmpty] at h2
      exact ⟨rfl, le_refl _, ⟨[], by simp⟩, fun hw => hw,
        Or.inr (Or.inl ⟨by omega, hemp, rfl, rfl⟩)⟩
    · rw [if_neg h2] at h
      dsimp only at h
      have hne : st.unreached ≠ [] := by
        intro hnil
        rw [hnil] at h2
        simp [List.isEmpty] at h2
      have hlen0 : 0 < st.unreached.length := by
        cases hu : st.unreached with
        | nil => exact absurd hu hne
        | cons a l => simp [hu]
      have hwle : st.winner.length ≤ t := by omega
      cases hi : iterativeSearch M tm fuel (min t (st.unreached.length - 1)) false st with
      | error m => rw [hi] at h; simp at h
      | ok p =>
        obtain ⟨s2, st2⟩ := p
        rw [hi] at h
        dsimp only at h
        cases hs : swLoop M tm fuel fuel (min t (st.unreached.length - 1)) s2 st2 with
        | error m => rw [hs] at h; simp at h
        | ok p2 =>
          obtain ⟨s3, st3⟩ := p2
          rw [hs] at h
          dsimp only at h
          injection h with hh
          injection hh with h3 h4
          subst h3
          subst h4
          obtain ⟨e0, e1, e2, e3, e4, e5, e6⟩ :=
            iterativeSearch_ok M tm fuel _ false st s2 st2 hi
          obtain ⟨f1, f2, f3, f4, f5, f6, f7, f8, f9⟩ :=
            swLoop_ok M tm fuel fuel _ s2 st2 s3 st3 hs
          have hwin : min t (st.unreached.length - 1) < st3.winner.length := by
            rcases f9 with ⟨hs3, hst3⟩ | hf | hf
            · rcases e6 with ⟨hs2, hstst, htlt⟩ | ⟨_, hlen, _⟩
              · rw [hst3, hstst]
                omega
              · rw [hst3, hlen]
                omega
            · exact hf
            · omega
          refine ⟨by rw [f1, e1], le_trans e2 f2, ?_, ?_, ?_⟩
          · obtain ⟨x1, hx1⟩ := e3
            obtain ⟨x2, hx2⟩ := f3
            exact ⟨x1 ++ x2, by rw [hx2, hx1, List.append_assoc]⟩
          · intro hw
            exact f4 (e4 hw)
          · by_cases hts : t < st.unreached.length
            · have hcond : t < st3.winner.length := by omega
              rw [if_pos hcond]
              exact Or.inr (Or.inr (Or.inl ⟨hwle, hts, hcond, rfl⟩))
            · have hbig : st.unreached.length ≤ t := by omega
              have hs2b : s2 + 1 ≤ st.unreached.length := by
                rcases e6 with ⟨hs2, _, _⟩ | ⟨_, _, hlt⟩
                · omega
                · omega
              have hs3b : s3 + 1 ≤ st.unreached.length := by
                rcases f7 with f7 | f7
                · omega
                · rw [e1] at f7
                  omega
              have hnotlt : ¬ t < st3.winner.length := by omega
              rw [if_neg hnotlt]
              refine Or.inr (Or.inr (Or.inr ⟨hwle, hne, hbig, rfl, ?_⟩))
              intro hw
              have := f4 (e4 hw)
              rw [f1, e1] at this
              omega

/-- A nonempty list has positive length (specialized helper). -/
theorem ne_nil_of_length_pos {α : Type} (l : List α) (h : 0 < l.length) :
    l ≠ [] := by
  cases l with
  | nil => simp at h
  | cons a t => simp

/-- Reading an index of the left part of an appended list. -/
theorem getD_append_left (l lp : List (Option ℕ)) (d : Option ℕ) (n : ℕ)
    (h : n < l.length) : (l ++ lp).getD n d = l.getD n d := by
  induction l generalizing n with
  | nil => simp at h
  | cons a t ih =>
    cases n with
    | zero => rfl
    | succ n => exact ih n (by simpa using h)

/-- C7 amended: a `SearchWinner` query at or beyond the number of columns
returns the absent id in both engines; the NAIVE engine returns without any
mutation, while the LAZY engine in general runs the clamped search (see the
counterexample) but leaves the engine untouched when the trellis is empty or
when the winner cache already covers every column. -/
theorem c7_beyond_columns (cols : List (List ℕ)) (NM : NCostModel) (mx : Bool)
    (ns : NaiveState) (M : CostModel) (tm : ℕ → ℕ) (fuel t : ℕ)
    (st st1 : LazyState) (r : Option ℕ)
    (hn : cols.length ≤ t)
    (hl : st.unreached.length ≤ t)
    (hcache : st.winner.length ≤ st.unreached.length)
    (hok : lazySearchWinner M tm fuel t st = .ok (r, st1)) :
    naiveSearchWinner cols NM mx ns t = (none, ns) ∧
    r = none ∧
    (st.unreached = [] → st1 = st) ∧
    (st.winner.length = st.unreached.length → st1 = st) := by
  obtain ⟨g1, g2, g3, g4, g5⟩ := lazySearchWinner_ok M tm fuel t st r st1 hok
  refine ⟨naiveSearchWinner_beyond cols NM mx ns t hn, ?_, ?_, ?_⟩
  · rcases g5 with ⟨hlt, _, _⟩ | ⟨_, _, _, hr⟩ | ⟨_, hlt, _, _⟩ | ⟨_, _, _, hr, _⟩
    · omega
    · exact hr
    · omega
    · exact hr
  · intro hemp
    rcases g5 with ⟨hlt, _, _⟩ | ⟨_, _, hst, _⟩ | ⟨_, hlt, _, _⟩ | ⟨_, hne, _, _, _⟩
    · omega
    · exact hst
    · omega
    · exact absurd hemp hne
  · intro hfull
    by_cases hemp : st.unreached = []
    · rcases g5 with ⟨hlt, _, _⟩ | ⟨_, _, hst, _⟩ | ⟨_, hlt, _, _⟩ | ⟨_, hne, _, _, _⟩
      · omega
      · exact hst
      · omega
      · exact absurd hemp hne
    · have hno := lazySearchWinner_noop_full M tm fuel t st hfull hemp hl
      have hpair : (r, st1) = ((none : Option ℕ), st) :=
        Except.ok.inj (hok.symm.trans hno)
      exact (Prod.ext_iff.1 hpair).2

/-- Witness for the amended C7 on the single-column trellis, queried one
past its columns after the search has completed. -/
theorem c7_witness :
    cols7.length ≤ (1 : ℕ) ∧
    st7final.unreached.length ≤ 1 ∧
    st7final.winner.length ≤ st7final.unreached.length ∧
    lazySearchWinner M7 (fun _ => 0) 100 1 st7final = .ok (none, st7final) ∧
    (naiveSearchWinner cols7 (toNModel M7) false ⟨[], []⟩ 1 = (none, ⟨[], []⟩) ∧
     (none : Option ℕ) = none ∧
     (st7final.unreached = [] → st7final = st7final) ∧
     (st7final.winner.length = st7final.unreached.length → st7final = st7final)) :=
  ⟨by decide, by decide, by decide, by decide,
    c7_beyond_columns cols7 (toNModel M7) false ⟨[], []⟩ M7 (fun _ => 0) 100 1
      st7final st7final none (by decide) (by decide) (by decide) (by decide)⟩

/-- `NaiveViterbiSearch::SearchWinner` on an in-columns, already-computed
time returns the cached winner without mutation. -/
theorem naiveSearchWinner_cached (cols : List (List ℕ)) (NM : NCostModel)
    (mx : Bool) (ns : NaiveState) (t : ℕ) (h1 : t < cols.length)
    (h2 : t < ns.winner.length) :
    naiveSearchWinner cols NM mx ns t = (ns.winner.getD t none, ns) := by
  unfold naiveSearchWinner
  rw [if_neg (by omega), if_pos h2]

/-- C3: in both engines `SearchWinner(t)` is stable: a repeated call returns
the same value (and leaves the engine unchanged), a later call at `t' ≥ t`
only appends to the winner cache, and a call at `t` after the `t'` call
still returns the original value — winner-cache entries are never
overwritten. -/
theorem c3_idempotent_monotone
    (cols : List (List ℕ)) (NM : NCostModel) (mx : Bool) (ns : NaiveState)
    (M : CostModel) (tm : ℕ → ℕ) (f1 f2 f3 f4 : ℕ)
    (st st1 st2 : LazyState) (t tp : ℕ) (r rp : Option ℕ)
    (hle : t ≤ tp)
    (hcache : st.winner.length ≤ st.unreached.length)
    (h1 : lazySearchWinner M tm f1 t st = .ok (r, st1))
    (h2 : lazySearchWinner M tm f2 tp st1 = .ok (rp, st2)) :
    lazySearchWinner M tm f3 t st1 = .ok (r, st1) ∧
    lazySearchWinner M tm f4 t st2 = .ok (r, st2) ∧
    (∃ ext, st1.winner = st.winner ++ ext) ∧
    (∃ ext, st2.winner = st1.winner ++ ext) ∧
    naiveSearchWinner cols NM mx (naiveSearchWinner cols NM mx ns t).2 t =
      ((naiveSearchWinner cols NM mx ns t).1, (naiveSearchWinner cols NM mx ns t).2) ∧
    naiveSearchWinner cols NM mx
        (naiveSearchWinner cols NM mx (naiveSearchWinner cols NM mx ns t).2 tp).2 t =
      ((naiveSearchWinner cols NM mx ns t).1,
        (naiveSearchWinner cols NM mx (naiveSearchWinner cols NM mx ns t).2 tp).2) ∧
    (∃ ext, (naiveSearchWinner cols NM mx ns t).2.winner = ns.winner ++ ext) ∧
    (∃ ext, (naiveSearchWinner cols NM mx (naiveSearchWinner cols NM mx ns t).2 tp).2.winner =
      (naiveSearchWinner cols NM mx ns t).2.winner ++ ext) := by
  obtain ⟨g1, g2, g3, g4, g5⟩ := lazySearchWinner_ok M tm f1 t st r st1 h1
  obtain ⟨k1, k2, k3, k4, k5⟩ := lazySearchWinner_ok M tm f2 tp st1 rp st2 h2
  have hpos : st.unreached ≠ [] → 0 < st.unreached.length := by
    intro hx
    cases hu : st.unreached with
    | nil => exact absurd hu hx
    | cons a l => simp [hu]
  have lazy1 : lazySearchWinner M tm f3 t st1 = .ok (r, st1) := by
    rcases g5 with ⟨hlt, hst, hr⟩ | ⟨hge, hemp, hst, hr⟩ |
      ⟨hge, hlt, hcov, hr⟩ | ⟨hge, hne, hbig, hr, hfull⟩
    · rw [hst, lazySearchWinner_cached M tm f3 t st hlt, hr]
    · rw [hst, lazySearchWinner_noop_empty M tm f3 t st hemp (by omega), hr]
    · rw [lazySearchWinner_cached M tm f3 t st1 hcov, hr]
    · have hfull1 : st1.winner.length = st1.unreached.length := by
        rw [g1]
        exact hfull hcache
      have hne1 : st1.unreached ≠ [] :=
        ne_nil_of_length_pos _ (by rw [g1]; exact hpos hne)
      have hbig1 : st1.unreached.length ≤ t := by rw [g1]; omega
      rw [lazySearchWinner_noop_full M tm f3 t st1 hfull1 hne1 hbig1, hr]
  have lazy2 : lazySearchWinner M tm f4 t st2 = .ok (r, st2) := by
    obtain ⟨ext2, hext2⟩ := k3
    rcases g5 with ⟨hlt, hst, hr⟩ | ⟨hge, hemp, hst, hr⟩ |
      ⟨hge, hlt, hcov, hr⟩ | ⟨hge, hne, hbig, hr, hfull⟩
    · -- cached at t in st (= st1): still cached in st2
      have hcov1 : t < st1.winner.length := by rw [hst]; exact hlt
      have hcov2 : t < st2.winner.length := by
        rw [hext2, List.length_append]
        omega
      have hval : st2.winner.getD t none = r := by
        rw [hext2, getD_append_left _ _ _ _ hcov1, hst, ← hr]
      rw [lazySearchWinner_cached M tm f4 t st2 hcov2, hval]
    · -- empty trellis: the tp call cannot have touched anything
      have hemp1 : st1.unreached = [] := by rw [hst]; exact hemp
      have hemp2 : st2.unreached = [] := by
        have : st2.unreached.length = 0 := by rw [k1, hemp1]; rfl
        cases hu : st2.unreached with
        | nil => rfl
        | cons a l => rw [hu] at this; simp at this
      have hwlen2 : st2.winner.length ≤ t := by
        rcases k5 with ⟨hlt2, hst2, _⟩ | ⟨_, _, hst2, _⟩ | ⟨_, hlt2, _, _⟩ | ⟨_, hne2, _, _⟩
        · rw [hst2, hst]
          omega
        · rw [hst2, hst]
          omega
        · rw [hemp1] at hlt2
          simp at hlt2
        · exact absurd hemp1 hne2
      rw [lazySearchWinner_noop_empty M tm f4 t st2 hemp2 hwlen2, hr]
    · -- in-columns: cached in st1, still cached in st2
      have hcov2 : t < st2.winner.length := by
        rw [hext2, List.length_append]
        omega
      have hval : st2.winner.getD t none = r := by
        rw [hext2, getD_append_left _ _ _ _ hcov, ← hr]
      rw [lazySearchWinner_cached M tm f4 t st2 hcov2, hval]
    · -- beyond the columns on a nonempty trellis
      have hfull1 : st1.winner.length = st1.unreached.length := by
        rw [g1]
        exact hfull hcache
      have hpos1 : 0 < st1.unreached.length := by rw [g1]; exact hpos hne
      have hfull2 : st2.winner.length = st2.unreached.length := by
        rcases k5 with ⟨hlt2, _, _⟩ | ⟨_, hemp2, _, _⟩ | ⟨_, hlt2, _, _⟩ | ⟨_, _, _, _, hf2⟩
        · omega
        · rw [hemp2] at hpos1
          simp at hpos1
        · have : st1.unreached.length ≤ tp := by rw [g1]; omega
          omega
        · rw [k1]
          exact hf2 (by omega)
      have hne2 : st2.unreached ≠ [] :=
        ne_nil_of_length_pos _ (by rw [k1]; exact hpos1)
      have hbig2 : st2.unreached.length ≤ t := by rw [k1, g1]; omega
      rw [lazySearchWinner_noop_full M tm f4 t st2 hfull2 hne2 hbig2, hr]
  refine ⟨lazy1, lazy2, g3, k3, ?_⟩
  by_cases ht : t < cols.length
  · obtain ⟨⟨ext1, hext1⟩, hcov, hval⟩ := naiveSearchWinner_spec cols NM mx ns t ht
    have n1 : naiveSearchWinner cols NM mx (naiveSearchWinner cols NM mx ns t).2 t =
        ((naiveSearchWinner cols NM mx ns t).1, (naiveSearchWinner cols NM mx ns t).2) := by
      rw [naiveSearchWinner_cached cols NM mx _ t ht hcov, ← hval]
    by_cases htp : tp < cols.length
    · obtain ⟨⟨ext2, hext2⟩, hcov2, hval2⟩ :=
        naiveSearchWinner_spec cols NM mx (naiveSearchWinner cols NM mx ns t).2 tp htp
      have hcovt : t <
          (naiveSearchWinner cols NM mx (naiveSearchWinner cols NM mx ns t).2 tp).2.winner.length := by
        rw [hext2, List.length_append]
        omega
      refine ⟨n1, ?_, ⟨ext1, hext1⟩, ⟨ext2, hext2⟩⟩
      rw [naiveSearchWinner_cached cols NM mx _ t ht hcovt, hext2,
        getD_append_left _ _ _ _ hcov, ← hval]
    · have hbtp : naiveSearchWinner cols NM mx (naiveSearchWinner cols NM mx ns t).2 tp =
          (none, (naiveSearchWinner cols NM mx ns t).2) :=
        naiveSearchWinner_beyond cols NM mx _ tp (by omega)
      refine ⟨n1, ?_, ⟨ext1, hext1⟩, ?_⟩
      · rw [hbtp]
        exact n1
      · rw [hbtp]
        exact ⟨[], by simp⟩
  · have hb1 : naiveSearchWinner cols NM mx ns t = (none, ns) :=
      naiveSearchWinner_beyond cols NM mx ns t (by omega)
    have hb2 : naiveSearchWinner cols NM mx ns tp = (none, ns) :=
      naiveSearchWinner_beyond cols NM mx ns tp (by omega)
    rw [hb1]
    dsimp only
    rw [hb2]
    dsimp only
    exact ⟨hb1, by rw [hb1], ⟨[], by simp⟩, ⟨[], by simp⟩⟩

/-- Witness for C3 on the breakage trellis, querying times 1 then 2. -/
theorem c3_witness :
    (1 : ℕ) ≤ 2 ∧
    (initLazy cols5).winner.length ≤ (initLazy cols5).unreached.length ∧
    lazySearchWinner M5 tmId 100 1 (initLazy cols5) =
      .ok (some 1, ⟨[[], [], [2]], [some 0, some 1],
        [(1, ⟨0, 1, none⟩), (0, ⟨0, 0, none⟩)], [], 2⟩) ∧
    lazySearchWinner M5 tmId 100 2
        ⟨[[], [], [2]], [some 0, some 1],
          [(1, ⟨0, 1, none⟩), (0, ⟨0, 0, none⟩)], [], 2⟩ =
      .ok (some 2, st5final) ∧
    lazySearchWinner M5 tmId 100 1
        ⟨[[], [], [2]], [some 0, some 1],
          [(1, ⟨0, 1, none⟩), (0, ⟨0, 0, none⟩)], [], 2⟩ =
      .ok (some 1, ⟨[[], [], [2]], [some 0, some 1],
        [(1, ⟨0, 1, none⟩), (0, ⟨0, 0, none⟩)], [], 2⟩) ∧
    lazySearchWinner M5 tmId 100 1 st5final = .ok (some 1, st5final) :=
  ⟨by decide, by decide, by decide, by decide,
    (c3_idempotent_monotone cols5 (toNModel M5) false ⟨[], []⟩ M5 tmId
      100 100 100 100 (initLazy cols5)
      ⟨[[], [], [2]], [some 0, some 1],
        [(1, ⟨0, 1, none⟩), (0, ⟨0, 0, none⟩)], [], 2⟩ st5final 1 2 (some 1) (some 2)
      (by decide) (by decide) (by decide) (by decide)).1,
    (c3_idempotent_monotone cols5 (toNModel M5) false ⟨[], []⟩ M5 tmId
      100 100 100 100 (initLazy cols5)
      ⟨[[], [], [2]], [some 0, some 1],
        [(1, ⟨0, 1, none⟩), (0, ⟨0, 0, none⟩)], [], 2⟩ st5final 1 2 (some 1) (some 2)
      (by decide) (by decide) (by decide) (by decide)).2.1⟩

/-- C9: the `earliest_time` watermark never decreases across a
`SearchWinner` call; a settlement raises it to `time + 1` exactly when the
settled state's unreached column becomes empty (and never lowers it); and a
popped label whose time is strictly below the watermark is discarded
touching nothing but the queue — it is not scanned and affects no cache. -/
theorem c9_earliest_watermark (M : CostModel) (tm : ℕ → ℕ) :
    (∀ (fuel t : ℕ) (st : LazyState) (r : Option ℕ) (st1 : LazyState),
      lazySearchWinner M tm fuel t st = .ok (r, st1) →
      st.earliest ≤ st1.earliest) ∧
    (∀ (st st1 : LazyState) (id : ℕ), lazyPopStep tm st = .settled st1 id →
      st1.earliest =
        (if st1.unreached.getD (tm id) [] = [] then tm id + 1 else st.earliest) ∧
      st.earliest ≤ st1.earliest) ∧
    (∀ (st : LazyState) (l : LLabel), queueTop st.queue = some l →
      tm l.state < st.earliest →
      lazyPopStep tm st = .discarded { st with queue := queueRemove l st.queue }) := by
  refine ⟨?_, ?_, ?_⟩
  · intro fuel t st r st1 h
    exact (lazySearchWinner_ok M tm fuel t st r st1 h).2.1
  · intro st st1 id h
    obtain ⟨a1, a2, a3, a4, a5, a6⟩ := lazyPopStep_settled tm st st1 id h
    exact ⟨a6, a2⟩
  · intro st l h1 h2
    exact lazyPopStep_discard_char tm st l h1 h2

/-- Witness for C9: a concrete search, a concrete settlement emptying its
column, and a concrete stale-label discard. -/
theorem c9_witness :
    lazySearchWinner M5 tmId 100 2 (initLazy cols5) = .ok (some 2, st5final) ∧
    (initLazy cols5).earliest ≤ st5final.earliest ∧
    lazyPopStep tmId ⟨[[0], [1], [2]], [], [], [⟨0, 0, none⟩], 0⟩ =
      .settled ⟨[[], [1], [2]], [some 0], [(0, ⟨0, 0, none⟩)], [], 1⟩ 0 ∧
    (⟨[[], [1], [2]], [some 0], [(0, ⟨0, 0, none⟩)], [], 1⟩ : LazyState).earliest =
      (if (⟨[[], [1], [2]], [some 0], [(0, ⟨0, 0, none⟩)], [], 1⟩ : LazyState).unreached.getD (tmId 0) [] = []
        then tmId 0 + 1
        else (⟨[[0], [1], [2]], [], [], [⟨0, 0, none⟩], 0⟩ : LazyState).earliest) ∧
    queueTop [(⟨0, 0, none⟩ : LLabel)] = some ⟨0, 0, none⟩ ∧
    tmId 0 < 5 ∧
    lazyPopStep tmId ⟨[[0]], [], [], [⟨0, 0, none⟩], 5⟩ =
      .discarded ⟨[[0]], [], [], [], 5⟩ :=
  ⟨by decide,
    (c9_earliest_watermark M5 tmId).1 100 2 (initLazy cols5) (some 2) st5final
      (by decide),
    by decide,
    ((c9_earliest_watermark M5 tmId).2.1
      ⟨[[0], [1], [2]], [], [], [⟨0, 0, none⟩], 0⟩
      ⟨[[], [1], [2]], [some 0], [(0, ⟨0, 0, none⟩)], [], 1⟩ 0 (by decide)).1,
    by decide, by decide,
    (c9_earliest_watermark M5 tmId).2.2 ⟨[[0]], [], [], [⟨0, 0, none⟩], 5⟩
      ⟨0, 0, none⟩ (by decide) (by decide)⟩

/-- A successful association-list lookup exhibits a member pair. -/
theorem lookup_mem :
    ∀ (l : List (ℕ × LLabel)) (id : ℕ) (lab : LLabel),
      List.lookup id l = some lab → (id, lab) ∈ l := by
  intro l
  induction l with
  | nil => intro id lab h; simp [List.lookup] at h
  | cons p l ih =>
    intro id lab h
    obtain ⟨k, v⟩ := p
    rw [List.lookup] at h
    cases hk : (id == k) with
    | true =>
      rw [hk] at h
      injection h with hv
      subst hv
      have : id = k := by simpa using hk
      subst this
      exact List.mem_cons_self _ _
    | false =>
      rw [hk] at h
      exact List.mem_cons_of_mem _ (ih id lab h)

/-- C6 amended: the path iterator starts at `(SearchWinner(t), t)`; at a
positive time it moves to the predecessor when one is recorded; when the
predecessor is absent it consults `SearchWinner` of the decremented time
(the winner cache, when that time is already covered) and continues from
that winner — but when the cached winner is also absent the iterator does
not terminate: it moves to a live absent-id position, distinct from the end
sentinel, and only a step at time 0 produces the end sentinel; finally, at
every step from a position whose state has the position's time, the new
position's id (when present) again has the decremented time. -/
theorem c6_iterator_steps (M : CostModel) (tm : ℕ → ℕ) (fuel : ℕ) :
    (∀ (t : ℕ) (st : LazyState) (w : Option ℕ) (st1 : LazyState),
      lazySearchWinner M tm fuel t st = .ok (w, st1) →
      lazySearchPathStart M tm fuel t st = .ok (.live w t, st1)) ∧
    (∀ (st : LazyState) (id? : Option ℕ) (p t : ℕ) ,
      lazyPredecessor st id? = some p →
      lazyGoback M tm fuel (.live id? (t + 1)) st = .ok (.live (some p) t, st)) ∧
    (∀ (st : LazyState) (id? : Option ℕ) (t : ℕ),
      lazyPredecessor st id? = none → t < st.winner.length →
      lazyGoback M tm fuel (.live id? (t + 1)) st =
        .ok (.live (st.winner.getD t none) t, st)) ∧
    (∀ (t : ℕ), (IterPos.live none t) ≠ IterPos.stop) ∧
    (∀ (st : LazyState) (id? : Option ℕ),
      lazyGoback M tm fuel (.live id? 0) st = .ok (.stop, st)) ∧
    (∀ (st : LazyState) (id t : ℕ) (p1 : IterPos) (st2 : LazyState),
      ScannedOk tm st → WinnerTimesOk tm st → tm id = t + 1 →
      t < st.winner.length →
      lazyGoback M tm fuel (.live (some id) (t + 1)) st = .ok (p1, st2) →
      st2 = st ∧ ∃ w, p1 = .live w t ∧ ∀ j, w = some j → tm j = t) := by
  refine ⟨?_, ?_, ?_, ?_, ?_, ?_⟩
  · intro t st w st1 h
    unfold lazySearchPathStart
    rw [h]
  · intro st id? p t h
    unfold lazyGoback
    dsimp only
    rw [h]
  · intro st id? t h hcac
    unfold lazyGoback
    dsimp only
    rw [h, lazySearchWinner_cached M tm fuel t st hcac]
  · intro t h
    simp at h
  · intro st id?
    rfl
  · intro st id t p1 st2 hsc hwt hid hcac hgo
    unfold lazyGoback at hgo
    dsimp only at hgo
    cases hp : lazyPredecessor st (some id) with
    | some p =>
      rw [hp] at hgo
      injection hgo with hh
      injection hh with h2 h3
      subst h3
      refine ⟨rfl, some p, h2.symm, ?_⟩
      intro j hj
      injection hj with hj
      subst hj
      unfold lazyPredecessor at hp
      dsimp only at hp
      cases hl : List.lookup id st.scanned with
      | none => rw [hl] at hp; simp at hp
      | some lab =>
        rw [hl] at hp
        obtain ⟨hkey, hpred⟩ := hsc _ (lookup_mem _ _ _ hl)
        have hpt := hpred p hp
        rw [hkey] at hpt
        dsimp only at hpt
        omega
    | none =>
      rw [hp] at hgo
      rw [lazySearchWinner_cached M tm fuel t st hcac] at hgo
      injection hgo with hh
      injection hh with h2 h3
      subst h3
      refine ⟨rfl, st.winner.getD t none, h2.symm, ?_⟩
      intro j hj
      exact hwt t hcac j hj

/-- The scanned map of the breakage-trellis end state is well formed. -/
theorem c6_scanned_ok : ScannedOk tmId st5final := by
  intro pr hpr
  fin_cases hpr <;> refine ⟨rfl, ?_⟩ <;> intro p hp <;> cases hp <;> rfl

/-- The winner cache of the breakage-trellis end state is well formed. -/
theorem c6_winner_ok : WinnerTimesOk tmId st5final := by
  intro i hi w hw
  have hi3 : i < 3 := hi
  interval_cases i <;> (injection hw with hw2; subst hw2; rfl)

/-- Witness for the amended C6 at the breakage-trellis end state. -/
theorem c6_witness :
    ScannedOk tmId st5final ∧
    WinnerTimesOk tmId st5final ∧
    tmId 2 = 1 + 1 ∧
    1 < st5final.winner.length ∧
    lazyGoback M5 tmId 100 (.live (some 2) (1 + 1)) st5final =
      .ok (.live (some 1) 1, st5final) ∧
    (st5final = st5final ∧
      ∃ w, IterPos.live (some 1) 1 = .live w 1 ∧ ∀ j, w = some j → tmId j = 1) :=
  ⟨c6_scanned_ok, c6_winner_ok, by decide, by decide, by decide,
    (c6_iterator_steps M5 tmId 100).2.2.2.2.2 st5final 2 1
      (.live (some 1) 1) st5final c6_scanned_ok c6_winner_ok (by decide)
      (by decide) (by decide)⟩

/-- The `SPQueue` top is a member of the queue. -/
theorem queueTop_mem : ∀ (q : List LLabel) (m : LLabel),
    queueTop q = some m → m ∈ q := by
  intro q
  induction q with
  | nil => intro m h; simp [queueTop] at h
  | cons l ls ih =>
    intro m h
    rw [queueTop] at h
    cases ht : queueTop ls with
    | none => rw [ht] at h; injection h with h1; subst h1; exact List.mem_cons_self l ls
    | some m1 =>
      rw [ht] at h
      dsimp only at h
      by_cases hle : l.costsofar ≤ m1.costsofar
      · rw [if_pos hle] at h
        injection h with h1
        subst h1
        exact List.mem_cons_self l ls
      · rw [if_neg hle] at h
        injection h with h1
        subst h1
        exact List.mem_cons_of_mem l (ih _ ht)

/-- An empty `SPQueue` top means an empty queue. -/
theorem queueTop_eq_none : ∀ (q : List LLabel), queueTop q = none → q = [] := by
  intro q
  cases q with
  | nil => intro _; rfl
  | cons a as =>
    intro h
    rw [queueTop] at h
    cases ht : queueTop as with
    | none => rw [ht] at h; simp at h
    | some m => rw [ht] at h; dsimp only at h; split at h <;> simp at h

/-- The `SPQueue` top has minimal cost among the queued labels. -/
theorem queueTop_min : ∀ (q : List LLabel) (m : LLabel),
    queueTop q = some m → ∀ x ∈ q, m.costsofar ≤ x.costsofar := by
  intro q
  induction q with
  | nil => intro m h; simp [queueTop] at h
  | cons l ls ih =>
    intro m h x hx
    rw [queueTop] at h
    cases ht : queueTop ls with
    | none =>
      rw [ht] at h
      injection h with h1
      subst h1
      rcases List.mem_cons.1 hx with hx | hx
      · subst hx; exact le_refl _
      · rw [queueTop_eq_none ls ht] at hx
        simp at hx
    | some m1 =>
      rw [ht] at h
      dsimp only at h
      by_cases hle : l.costsofar ≤ m1.costsofar
      · rw [if_pos hle] at h
        injection h with h1
        subst h1
        rcases List.mem_cons.1 hx with hx | hx
        · subst hx; exact le_refl _
        · exact le_trans hle (ih m1 ht x hx)
      · rw [if_neg hle] at h
        injection h with h1
        subst h1
        rcases List.mem_cons.1 hx with hx | hx
        · subst hx; omega
        · exact ih _ ht x hx

/-- Removing the popped label only drops labels. -/
theorem queueRemove_subset : ∀ (q : List LLabel) (l x : LLabel),
    x ∈ queueRemove l q → x ∈ q := by
  intro q
  induction q with
  | nil => intro l x h; simp [queueRemove] at h
  | cons a as ih =>
    intro l x h
    rw [queueRemove] at h
    by_cases ha : a = l
    · rw [if_pos ha] at h
      exact List.mem_cons_of_mem a h
    · rw [if_neg ha] at h
      rcases List.mem_cons.1 h with h | h
      · subst h; exact List.mem_cons_self _ _
      · exact List.mem_cons_of_mem a (ih l x h)

/-- A label different from the removed one survives the removal. -/
theorem queueRemove_mem_of_ne : ∀ (q : List LLabel) (l x : LLabel),
    x ∈ q → x ≠ l → x ∈ queueRemove l q := by
  intro q
  induction q with
  | nil => intro l x h; simp at h
  | cons a as ih =>
    intro l x h hne
    rw [queueRemove]
    by_cases ha : a = l
    · rw [if_pos ha]
      rcases List.mem_cons.1 h with h | h
      · subst h; subst ha; exact absurd rfl hne
      · exact h
    · rw [if_neg ha]
      rcases List.mem_cons.1 h with h | h
      · subst h; exact List.mem_cons_self _ _
      · exact List.mem_cons_of_mem a (ih l x h hne)

/-- A state different from the removed one survives `removeFirst`. -/
theorem removeFirst_mem_of_ne : ∀ (id : ℕ) (l col : List ℕ) (s : ℕ),
    removeFirst id l = some col → s ∈ l → s ≠ id → s ∈ col := by
  intro id l
  induction l with
  | nil => intro col s h; simp [removeFirst] at h
  | cons x xs ih =>
    intro col s h hs hne
    rw [removeFirst] at h
    by_cases hx : x = id
    · rw [if_pos hx] at h
      injection h with h1
      subst h1
      rcases List.mem_cons.1 hs with hs | hs
      · subst hs; exact absurd hx hne
      · exact hs
    · rw [if_neg hx] at h
      cases hr : removeFirst id xs with
      | none => rw [hr] at h; simp at h
      | some ys =>
        rw [hr] at h
        injection h with h1
        subst h1
        rcases List.mem_cons.1 hs with hs | hs
        · subst hs; exact List.mem_cons_self s ys
        · exact List.mem_cons_of_mem x (ih ys s hr hs hne)

/-- `removeFirst` only drops states. -/
theorem removeFirst_subset : ∀ (id : ℕ) (l col : List ℕ) (s : ℕ),
    removeFirst id l = some col → s ∈ col → s ∈ l := by
  intro id l
  induction l with
  | nil => intro col s h; simp [removeFirst] at h
  | cons x xs ih =>
    intro col s h hs
    rw [removeFirst] at h
    by_cases hx : x = id
    · rw [if_pos hx] at h
      injection h with h1
      subst h1
      exact List.mem_cons_of_mem x hs
    · rw [if_neg hx] at h
      cases hr : removeFirst id xs with
      | none => rw [hr] at h; simp at h
      | some ys =>
        rw [hr] at h
        injection h with h1
        subst h1
        rcases List.mem_cons.1 hs with hs | hs
        · subst hs; exact List.mem_cons_self s xs
        · exact List.mem_cons_of_mem x (ih ys s hr hs)

/-- Setting one index leaves every other `getD`-read unchanged. -/
theorem getD_set_ne (l : List (List ℕ)) (i j : ℕ) (v : List ℕ) (hij : i ≠ j) :
    (l.set i v).getD j [] = l.getD j [] := by
  simp only [List.getD_eq_getElem?_getD]
  rw [List.getElem?_set_ne hij]

/-- Membership in a `getD`-read column bounds the index. -/
theorem mem_getD_lt (l : List (List ℕ)) (n : ℕ) (s : ℕ)
    (h : s ∈ l.getD n []) : n < l.length := by
  by_contra hc
  rw [List.getD_eq_default _ _ (by omega)] at h
  simp at h

/-- A key with no association is absent from the key list. -/
theorem lookup_none_not_key : ∀ (l : List (ℕ × LLabel)) (id : ℕ),
    List.lookup id l = none → id ∉ l.map Prod.fst := by
  intro l
  induction l with
  | nil => intro id h; simp
  | cons p ps ih =>
    intro id h
    rw [List.lookup] at h
    cases hk : (id == p.1) with
    | true => rw [hk] at h; simp at h
    | false =>
      rw [hk] at h
      simp only [List.map_cons, List.mem_cons]
      rintro (h1 | h1)
      · subst h1; simp at hk
      · exact ih id h h1

/-- Valid-path costs are non-negative. -/
theorem ReachCost_nonneg (cols : List (List ℕ)) (M : CostModel) (t id : ℕ)
    (c : ℤ) (h : ReachCost cols M t id c) : 0 ≤ c := by
  cases h with
  | base id hmem he => exact he
  | step t p id c hp hmem he htr hc => exact hc

/-- A reached state belongs to its column. -/
theorem ReachCost_mem (cols : List (List ℕ)) (M : CostModel) (t id : ℕ)
    (c : ℤ) (h : ReachCost cols M t id c) : id ∈ cols.getD t [] := by
  cases h with
  | base id hmem he => exact hmem
  | step t p id c hp hmem he htr hc => exact hmem

/-- The `min?` of a list is one of its members. -/
theorem min?_mem_of_eq : ∀ (xs : List ℤ) (m : ℤ), xs.min? = some m → m ∈ xs := by
  intro xs
  induction xs with
  | nil => intro m h; simp at h
  | cons x xs ih =>
    intro m h
    rw [List.min?_cons] at h
    injection h with h1
    cases hx : xs.min? with
    | none =>
      rw [hx] at h1
      dsimp only [Option.elim] at h1
      rw [← h1]
      exact List.mem_cons_self _ _
    | some m1 =>
      rw [hx] at h1
      dsimp only [Option.elim] at h1
      rcases min_choice x m1 with hm | hm
      · rw [hm] at h1; rw [← h1]; exact List.mem_cons_self _ _
      · rw [hm] at h1; rw [← h1]; exact List.mem_cons_of_mem _ (ih m1 hx)

/-- The `min?` of a list is below every member. -/
theorem min?_le_mem : ∀ (xs : List ℤ) (m : ℤ), xs.min? = some m →
    ∀ b ∈ xs, m ≤ b := by
  intro xs
  induction xs with
  | nil => intro m h; simp at h
  | cons x xs ih =>
    intro m h b hb
    rw [List.min?_cons] at h
    injection h with h1
    cases hx : xs.min? with
    | none =>
      rw [hx] at h1
      dsimp only [Option.elim] at h1
      rcases List.mem_cons.1 hb with hb | hb
      · subst hb; exact le_of_eq h1.symm
      · cases xs with
        | nil => simp at hb
        | cons y ys => rw [List.min?_cons] at hx; simp at hx
    | some m1 =>
      rw [hx] at h1
      dsimp only [Option.elim] at h1
      rcases List.mem_cons.1 hb with hb | hb
      · subst hb; rw [← h1]; exact min_le_left _ _
      · rw [← h1]; exact le_trans (min_le_right _ _) (ih m1 hx b hb)

/-- A list member below all members is the `min?`. -/
theorem min?_eq_of_mem_le (l : List ℤ) (a : ℤ) (hmem : a ∈ l)
    (hle : ∀ b ∈ l, a ≤ b) : l.min? = some a := by
  cases l with
  | nil => simp at hmem
  | cons x xs =>
    cases hm : (x :: xs).min? with
    | none => rw [List.min?_cons] at hm; simp at hm
    | some m =>
      have h1 : m ≤ a := min?_le_mem _ m hm a hmem
      have h2 : a ≤ m := hle m (min?_mem_of_eq _ m hm)
      exact congrArg some (le_antisymm h1 h2)

/-- Every path produced by `allPathsTo` ends at the requested state. -/
theorem allPathsTo_shape (cols : List (List ℕ)) :
    ∀ (t id : ℕ) (P : List ℕ), P ∈ allPathsTo cols t id → ∃ Q, P = Q ++ [id] := by
  intro t
  cases t with
  | zero =>
    intro id P hP
    rw [allPathsTo] at hP
    by_cases hmem : id ∈ cols.getD 0 []
    · rw [if_pos hmem] at hP
      simp at hP
      exact ⟨[], by simp [hP]⟩
    · rw [if_neg hmem] at hP
      simp at hP
  | succ t =>
    intro id P hP
    rw [allPathsTo] at hP
    by_cases hmem : id ∈ cols.getD (t + 1) []
    · rw [if_pos hmem] at hP
      rw [List.mem_map] at hP
      obtain ⟨path, _, heq⟩ := hP
      exact ⟨path, heq.symm⟩
    · rw [if_neg hmem] at hP
      simp at hP

/-- The `getLastD` of a list ending in `p` is `p`. -/
theorem concat_getLastD : ∀ (Q : List ℕ) (p d : ℕ), (Q ++ [p]).getLastD d = p := by
  intro Q
  induction Q with
  | nil => intro p d; rfl
  | cons x xs ih =>
    intro p d
    rw [List.cons_append, List.getLastD_cons]
    exact ih p x

/-- Costing a path extended by one state splits at the old last state. -/
theorem pathCostFrom_snoc (M : CostModel) :
    ∀ (xs : List ℕ) (c : ℤ) (p w : ℕ),
      pathCostFrom M c p (xs ++ [w]) =
        match pathCostFrom M c p xs with
        | none => none
        | some c1 => pathCostFrom M c1 (xs.getLastD p) [w] := by
  intro xs
  induction xs with
  | nil =>
    intro c p w
    rw [pathCostFrom]
    rfl
  | cons x xs ih =>
    intro c p w
    rw [List.cons_append, pathCostFrom]
    dsimp only
    by_cases he : M.emission x < 0
    · rw [if_pos he]
      rw [pathCostFrom]
      dsimp only
      rw [if_pos he]
    · rw [if_neg he]
      by_cases htr : M.transition p x < 0
      · rw [if_pos htr]
        rw [pathCostFrom]
        dsimp only
        rw [if_neg he, if_pos htr]
      · rw [if_neg htr]
        by_cases hcs : M.costSofar c (M.transition p x) (M.emission x) < 0
        · rw [if_pos hcs]
          rw [pathCostFrom]
          dsimp only
          rw [if_neg he, if_neg htr, if_pos hcs]
        · rw [if_neg hcs]
          rw [ih]
          rw [pathCostFrom]
          dsimp only
          rw [if_neg he, if_neg htr, if_neg hcs, List.getLastD_cons]

/-- Costing a nonempty path extended by one state splits at the last state. -/
theorem pathCost_snoc (M : CostModel) (p0 : ℕ) (rest : List ℕ) (w : ℕ) :
    pathCost M ((p0 :: rest) ++ [w]) =
      match pathCost M (p0 :: rest) with
      | none => none
      | some c1 => pathCostFrom M c1 (rest.getLastD p0) [w] := by
  rw [List.cons_append, pathCost, pathCost]
  by_cases he : M.emission p0 < 0
  · rw [if_pos he, if_pos he]
  · rw [if_neg he, if_neg he]
    exact pathCostFrom_snoc M rest (M.emission p0) p0 w

/-- Soundness of the path enumeration: a valid path cost read off a member
of `allPathsTo` yields a `ReachCost` derivation. -/
theorem pathsTo_reach (cols : List (List ℕ)) (M : CostModel) :
    ∀ (t id : ℕ) (P : List ℕ), P ∈ allPathsTo cols t id →
      ∀ c, pathCost M P = some c → ReachCost cols M t id c := by
  intro t
  induction t with
  | zero =>
    intro id P hP c hc
    rw [allPathsTo] at hP
    by_cases hmem : id ∈ cols.getD 0 []
    · rw [if_pos hmem] at hP
      simp at hP
      subst hP
      rw [pathCost] at hc
      by_cases he : M.emission id < 0
      · rw [if_pos he] at hc; simp at hc
      · rw [if_neg he] at hc
        rw [pathCostFrom] at hc
        injection hc with hc1
        subst hc1
        exact ReachCost.base id hmem (by omega)
    · rw [if_neg hmem] at hP
      simp at hP
  | succ t ih =>
    intro id P hP c hc
    rw [allPathsTo] at hP
    by_cases hmem : id ∈ cols.getD (t + 1) []
    · rw [if_pos hmem] at hP
      rw [List.mem_map] at hP
      obtain ⟨path, hpath, hPeq⟩ := hP
      rw [List.mem_flatMap] at hpath
      obtain ⟨p, hpcol, hpmem⟩ := hpath
      obtain ⟨Q, hQ⟩ := allPathsTo_shape cols t p path hpmem
      cases path with
      | nil => simp at hQ
      | cons p0 rest =>
        subst hPeq
        rw [pathCost_snoc] at hc
        cases hpc : pathCost M (p0 :: rest) with
        | none => rw [hpc] at hc; simp at hc
        | some c1 =>
          rw [hpc] at hc
          dsimp only at hc
          have hlast : rest.getLastD p0 = p := by
            have h2 := concat_getLastD Q p p0
            rw [← hQ, List.getLastD_cons] at h2
            exact h2
          rw [hlast, pathCostFrom] at hc
          dsimp only at hc
          by_cases he : M.emission id < 0
          · rw [if_pos he] at hc; simp at hc
          · rw [if_neg he] at hc
            by_cases htr : M.transition p id < 0
            · rw [if_pos htr] at hc; simp at hc
            · rw [if_neg htr] at hc
              by_cases hcs : M.costSofar c1 (M.transition p id) (M.emission id) < 0
              · rw [if_pos hcs] at hc; simp at hc
              · rw [if_neg hcs] at hc
                rw [pathCostFrom] at hc
                injection hc with hc1
                subst hc1
                exact ReachCost.step t p id c1 (ih p (p0 :: rest) hpmem c1 hpc)
                  hmem (by omega) (by omega) (by omega)
    · rw [if_neg hmem] at hP
      simp at hP

/-- Completeness of the path enumeration: every `ReachCost` derivation is
realized by a valid path enumerated by `allPathsTo`. -/
theorem reach_pathsTo (cols : List (List ℕ)) (M : CostModel) (t id : ℕ) (c : ℤ)
    (h : ReachCost cols M t id c) : c ∈ pathCostsTo cols M t id := by
  induction h with
  | base id hmem he =>
    rw [pathCostsTo, List.mem_filterMap]
    refine ⟨[id], ?_, ?_⟩
    · rw [allPathsTo, if_pos hmem]
      simp
    · rw [pathCost]
      rw [if_neg (by omega), pathCostFrom]
  | step t p id c hp hmem he htr hc ih =>
    rw [pathCostsTo, List.mem_filterMap] at ih ⊢
    obtain ⟨P, hP, hcost⟩ := ih
    refine ⟨P ++ [id], ?_, ?_⟩
    · rw [allPathsTo, if_pos hmem, List.mem_map]
      refine ⟨P, ?_, rfl⟩
      rw [List.mem_flatMap]
      exact ⟨p, ReachCost_mem _ _ _ _ _ hp, hP⟩
    · obtain ⟨Q, hQ⟩ := allPathsTo_shape cols t p P hP
      cases P with
      | nil => simp at hQ
      | cons p0 rest =>
        rw [pathCost_snoc, hcost]
        dsimp only
        have hlast : rest.getLastD p0 = p := by
          have h2 := concat_getLastD Q p p0
          rw [← hQ, List.getLastD_cons] at h2
          exact h2
        rw [hlast, pathCostFrom]
        dsimp only
        rw [if_neg (by omega), if_neg (by omega), if_neg (by omega), pathCostFrom]

/-- Full characterization of a settling `lazyPopStep`: the popped label, the
settlement conditions, and every field of the successor state. -/
theorem lazyPopStep_settled_shape (tm : ℕ → ℕ) (st st1 : LazyState) (id : ℕ)
    (h : lazyPopStep tm st = .settled st1 id) :
    ∃ label col,
      queueTop st.queue = some label ∧
      label.state = id ∧
      st.earliest ≤ tm id ∧
      List.lookup id st.scanned = none ∧
      removeFirst id (st.unreached.getD (tm id) []) = some col ∧
      st1.scanned = (id, label) :: st.scanned ∧
      st1.queue = queueRemove label st.queue ∧
      st1.unreached = st.unreached.set (tm id) col ∧
      st1.earliest = (if col = [] then tm id + 1 else st.earliest) ∧
      (st1.winner = st.winner ∨ st1.winner = st.winner ++ [some id]) := by
  unfold lazyPopStep at h
  cases hq : queuePop st.queue with
  | none => rw [hq] at h; simp at h
  | some p =>
    obtain ⟨l, q⟩ := p
    rw [hq] at h
    dsimp only at h
    rw [queuePop] at hq
    cases htop : queueTop st.queue with
    | none => rw [htop] at hq; simp at hq
    | some m =>
      rw [htop] at hq
      injection hq with hq1
      injection hq1 with hql hqq
      subst hql
      subst hqq
      by_cases h1 : tm m.state < st.earliest
      · rw [if_pos h1] at h; simp at h
      · rw [if_neg h1] at h
        by_cases h2 : (List.lookup m.state st.scanned).isSome = true
        · rw [if_pos h2] at h; simp at h
        · rw [if_neg h2] at h
          cases hr : removeFirst m.state (st.unreached.getD (tm m.state) []) with
          | none => rw [hr] at h; simp at h
          | some col =>
            rw [hr] at h
            dsimp only at h
            have h2n : List.lookup m.state st.scanned = none := by
              cases hl : List.lookup m.state st.scanned with
              | none => rfl
              | some v => rw [hl] at h2; simp at h2
            by_cases hcol : col = []
            · rw [if_pos hcol] at h
              by_cases hw : st.winner.length ≤ tm m.state
              · rw [if_pos hw] at h
                by_cases hw2 : tm m.state = st.winner.length
                · rw [if_pos hw2] at h
                  injection h with h3 h4
                  subst h4
                  subst h3
                  exact ⟨m, col, rfl, rfl, by omega, h2n, hr, rfl, rfl, rfl,
                    by rw [if_pos hcol], Or.inr rfl⟩
                · rw [if_neg hw2] at h; simp at h
              · rw [if_neg hw] at h
                injection h with h3 h4
                subst h4
                subst h3
                exact ⟨m, col, rfl, rfl, by omega, h2n, hr, rfl, rfl, rfl,
                  by rw [if_pos hcol], Or.inl rfl⟩
            · rw [if_neg hcol] at h
              by_cases hw : st.winner.length ≤ tm m.state
              · rw [if_pos hw] at h
                by_cases hw2 : tm m.state = st.winner.length
                · rw [if_pos hw2] at h
                  injection h with h3 h4
                  subst h4
                  subst h3
                  exact ⟨m, col, rfl, rfl, by omega, h2n, hr, rfl, rfl, rfl,
                    by rw [if_neg hcol], Or.inr rfl⟩
                · rw [if_neg hw2] at h; simp at h
              · rw [if_neg hw] at h
                injection h with h3 h4
                subst h4
                subst h3
                exact ⟨m, col, rfl, rfl, by omega, h2n, hr, rfl, rfl, rfl,
                  by rw [if_neg hcol], Or.inl rfl⟩

/-- Full characterization of a discarding `lazyPopStep`. -/
theorem lazyPopStep_discarded_shape (tm : ℕ → ℕ) (st st1 : LazyState)
    (h : lazyPopStep tm st = .discarded st1) :
    ∃ label,
      queueTop st.queue = some label ∧
      tm label.state < st.earliest ∧
      st1 = { st with queue := queueRemove label st.queue } := by
  unfold lazyPopStep at h
  cases hq : queuePop st.queue with
  | none => rw [hq] at h; simp at h
  | some p =>
    obtain ⟨l, q⟩ := p
    rw [hq] at h
    dsimp only at h
    rw [queuePop] at hq
    cases htop : queueTop st.queue with
    | none => rw [htop] at hq; simp at hq
    | some m =>
      rw [htop] at hq
      injection hq with hq1
      injection hq1 with hql hqq
      subst hql
      subst hqq
      by_cases h1 : tm m.state < st.earliest
      · rw [if_pos h1] at h
        injection h with h2
        subst h2
        exact ⟨m, rfl, h1, rfl⟩
      · rw [if_neg h1] at h
        by_cases h2 : (List.lookup m.state st.scanned).isSome = true
        · rw [if_pos h2] at h; simp at h
        · rw [if_neg h2] at h
          cases hr : removeFirst m.state (st.unreached.getD (tm m.state) []) with
          | none => rw [hr] at h; simp at h
          | some col =>
            rw [hr] at h
            dsimp only at h
            split at h <;> split at h <;> (try split at h) <;> simp at h

/-- Full characterization of a successful `AddSuccessorsToQueue`. -/
theorem addSucc_ok_shape (M : CostModel) (tm : ℕ → ℕ) (st : LazyState)
    (s : ℕ) (st1 : LazyState) (h : addSuccessorsToQueue M tm st s = .ok st1) :
    tm s + 1 < st.unreached.length ∧
    ∃ lab, List.lookup s st.scanned = some lab ∧ 0 ≤ lab.costsofar ∧
      st1 = { st with
              queue :=
                (st.unreached.getD (tm s + 1) []).foldl
                  (fun q nx =>
                    let e := M.emission nx
                    if e < 0 then q
                    else
                      let tr := M.transition s nx
                      if tr < 0 then q
                      else
                        let cs := M.costSofar lab.costsofar tr e
                        if cs < 0 then q
                        else queuePush q ⟨cs, nx, some s⟩)
                  st.queue } := by
  unfold addSuccessorsToQueue at h
  by_cases hlt : tm s + 1 < st.unreached.length
  · rw [if_pos hlt] at h
    cases hl : List.lookup s st.scanned with
    | none => rw [hl] at h; simp at h
    | some lab =>
      rw [hl] at h
      dsimp only at h
      by_cases hneg : lab.costsofar < 0
      · rw [if_pos hneg] at h; simp at h
      · rw [if_neg hneg] at h
        injection h with h1
        exact ⟨hlt, lab, rfl, by omega, h1.symm⟩
  · rw [if_neg hlt] at h
    simp at h

/-- Membership in the label queue built by the successor-expansion fold. -/
theorem succ_fold_mem (M : CostModel) (base : ℤ) (s : ℕ) :
    ∀ (col : List ℕ) (q0 : List LLabel) (lb : LLabel),
      (lb ∈ col.foldl
        (fun q nx =>
          let e := M.emission nx
          if e < 0 then q
          else
            let tr := M.transition s nx
            if tr < 0 then q
            else
              let cs := M.costSofar base tr e
              if cs < 0 then q
              else queuePush q ⟨cs, nx, some s⟩) q0) ↔
      lb ∈ q0 ∨ ∃ w ∈ col, 0 ≤ M.emission w ∧ 0 ≤ M.transition s w ∧
        0 ≤ M.costSofar base (M.transition s w) (M.emission w) ∧
        lb = ⟨M.costSofar base (M.transition s w) (M.emission w), w, some s⟩ := by
  intro col
  induction col with
  | nil =>
    intro q0 lb
    simp
  | cons x xs ih =>
    intro q0 lb
    rw [List.foldl_cons]
    dsimp only
    constructor
    · intro hmem
      rcases (ih _ lb).1 hmem with hq | ⟨w, hw, h1, h2, h3, h4⟩
      · by_cases he : M.emission x < 0
        · rw [if_pos he] at hq
          exact Or.inl hq
        · rw [if_neg he] at hq
          by_cases htr : M.transition s x < 0
          · rw [if_pos htr] at hq
            exact Or.inl hq
          · rw [if_neg htr] at hq
            by_cases hcs : M.costSofar base (M.transition s x) (M.emission x) < 0
            · rw [if_pos hcs] at hq
              exact Or.inl hq
            · rw [if_neg hcs] at hq
              rw [queuePush, List.mem_append] at hq
              rcases hq with hq | hq
              · exact Or.inl hq
              · simp at hq
                exact Or.inr ⟨x, List.mem_cons_self _ _, by omega, by omega,
                  by omega, hq⟩
      · exact Or.inr ⟨w, List.mem_cons_of_mem _ hw, h1, h2, h3, h4⟩
    · intro hmem
      rcases hmem with hq | ⟨w, hw, h1, h2, h3, h4⟩
      · refine (ih _ lb).2 (Or.inl ?_)
        by_cases he : M.emission x < 0
        · rw [if_pos he]; exact hq
        · rw [if_neg he]
          by_cases htr : M.transition s x < 0
          · rw [if_pos htr]; exact hq
          · rw [if_neg htr]
            by_cases hcs : M.costSofar base (M.transition s x) (M.emission x) < 0
            · rw [if_pos hcs]; exact hq
            · rw [if_neg hcs]
              rw [queuePush, List.mem_append]
              exact Or.inl hq
      · rcases List.mem_cons.1 hw with hx | hx
        · subst hx
          refine (ih _ lb).2 (Or.inl ?_)
          rw [if_neg (by omega), if_neg (by omega), if_neg (by omega)]
          rw [queuePush, List.mem_append]
          exact Or.inr (by simp [h4])
        · exact (ih _ lb).2 (Or.inr ⟨w, hx, h1, h2, h3, h4⟩)

/-- Membership in the emission-seeded queue built by `InitQueue`. -/
theorem initQueue_mem (M : CostModel) :
    ∀ (col : List ℕ) (q0 : List LLabel) (lb : LLabel),
      (lb ∈ col.foldl
        (fun q s =>
          let e := M.emission s
          if e < 0 then q else queuePush q ⟨e, s, none⟩) q0) ↔
      lb ∈ q0 ∨ ∃ s ∈ col, 0 ≤ M.emission s ∧ lb = ⟨M.emission s, s, none⟩ := by
  intro col
  induction col with
  | nil =>
    intro q0 lb
    simp
  | cons x xs ih =>
    intro q0 lb
    rw [List.foldl_cons]
    dsimp only
    constructor
    · intro hmem
      rcases (ih _ lb).1 hmem with hq | ⟨w, hw, h1, h2⟩
      · by_cases he : M.emission x < 0
        · rw [if_pos he] at hq
          exact Or.inl hq
        · rw [if_neg he] at hq
          rw [queuePush, List.mem_append] at hq
          rcases hq with hq | hq
          · exact Or.inl hq
          · simp at hq
            exact Or.inr ⟨x, List.mem_cons_self _ _, by omega, hq⟩
      · exact Or.inr ⟨w, List.mem_cons_of_mem _ hw, h1, h2⟩
    · intro hmem
      rcases hmem with hq | ⟨w, hw, h1, h2⟩
      · refine (ih _ lb).2 (Or.inl ?_)
        by_cases he : M.emission x < 0
        · rw [if_pos he]; exact hq
        · rw [if_neg he]
          rw [queuePush, List.mem_append]
          exact Or.inl hq
      · rcases List.mem_cons.1 hw with hx | hx
        · subst hx
          refine (ih _ lb).2 (Or.inl ?_)
          rw [if_neg (by omega)]
          rw [queuePush, List.mem_append]
          exact Or.inr (by simp [h2])
        · exact (ih _ lb).2 (Or.inr ⟨w, hx, h1, h2⟩)

/-- Frontier property of the segment invariant: every valid path cost to an
unsettled state whose time is at or past `earliest_time` is matched by some
queued label of no greater cost. -/
theorem seg_frontier (cols : List (List ℕ)) (M : CostModel) (tm : ℕ → ℕ)
    (Htm : ∀ t < cols.length, ∀ s ∈ cols.getD t [], tm s = t)
    (Hmono : ∀ x y u e : ℤ, x ≤ y → M.costSofar x u e ≤ M.costSofar y u e)
    (Hgrow : ∀ x u e : ℤ, 0 ≤ x → 0 ≤ u → 0 ≤ e → x ≤ M.costSofar x u e)
    (st : LazyState) (inv : SegInvP cols M tm [] st) :
    ∀ (t id : ℕ) (c : ℤ), ReachCost cols M t id c →
      List.lookup id st.scanned = none → st.earliest ≤ t →
      ∃ lb ∈ st.queue, lb.costsofar ≤ c := by
  intro t id c h
  induction h with
  | base id hmem he =>
    intro hun hearly
    rcases inv.seeded id hmem hun he with h0 | ⟨lb, hlb, _, hle⟩
    · omega
    · exact ⟨lb, hlb, hle⟩
  | step t p id c hp hmem he htr hc ih =>
    intro hun hearly
    have htlen : t + 1 < cols.length := mem_getD_lt _ _ _ hmem
    have hpmem : p ∈ cols.getD t [] := ReachCost_mem _ _ _ _ _ hp
    have htmp : tm p = t := Htm t (by omega) p hpmem
    have htmid : tm id = t + 1 := Htm (t + 1) htlen id hmem
    cases hps : List.lookup p st.scanned with
    | some lp =>
      have hprmem : (p, lp) ∈ st.scanned := lookup_mem _ _ _ hps
      have hp' : ReachCost cols M (tm p) p c := by rw [htmp]; exact hp
      have hlpc : lp.costsofar ≤ c := inv.scanned_min (p, lp) hprmem c hp'
      have hwmem : id ∈ cols.getD (tm (p, lp).1 + 1) [] := by
        show id ∈ cols.getD (tm p + 1) []
        rw [htmp]
        exact hmem
      rcases inv.expanded (p, lp) hprmem (by simp) id hwmem he htr with
        ⟨lw, hlw, _⟩ | ⟨_, hde | ⟨lb, hlb, _, hlble⟩⟩
      · rw [hun] at hlw
        simp at hlw
      · rw [htmid] at hde
        omega
      · exact ⟨lb, hlb, le_trans hlble (Hmono _ _ _ _ hlpc)⟩
    | none =>
      by_cases hearly2 : st.earliest ≤ t
      · obtain ⟨lb, hlb, hle⟩ := ih hps hearly2
        exact ⟨lb, hlb, le_trans hle
          (Hgrow c _ _ (ReachCost_nonneg _ _ _ _ _ hp) htr he)⟩
      · exfalso
        have he1 : st.earliest = t + 1 := by omega
        have hfe := inv.front_empty (by omega)
        rw [he1] at hfe
        simp only [Nat.add_sub_cancel] at hfe
        rcases inv.cols_split t (by omega) p hpmem with hin | hsct
        · rw [hfe] at hin
          simp at hin
        · rw [hps] at hsct
          simp at hsct

/-- Settling a popped label preserves the segment invariant, with the newly
settled state exempt from the expansion obligation until its
`AddSuccessorsToQueue` call. -/
theorem seg_settle (cols : List (List ℕ)) (M : CostModel) (tm : ℕ → ℕ)
    (Htm : ∀ t < cols.length, ∀ s ∈ cols.getD t [], tm s = t)
    (Hmono : ∀ x y u e : ℤ, x ≤ y → M.costSofar x u e ≤ M.costSofar y u e)
    (Hgrow : ∀ x u e : ℤ, 0 ≤ x → 0 ≤ u → 0 ≤ e → x ≤ M.costSofar x u e)
    (st st1 : LazyState) (id : ℕ)
    (inv : SegInvP cols M tm [] st)
    (h : lazyPopStep tm st = .settled st1 id) :
    SegInvP cols M tm [id] st1 ∧
    ∃ label, st1.scanned = (id, label) :: st.scanned := by
  obtain ⟨label, col, htop, hstate, hearly, hlook, hrem, hsc, hq, hun, he1, hwin⟩ :=
    lazyPopStep_settled_shape tm st st1 id h
  have hlmem : label ∈ st.queue := queueTop_mem _ _ htop
  have hmin : ∀ x ∈ st.queue, label.costsofar ≤ x.costsofar := queueTop_min _ _ htop
  have htlt : tm id < st.unreached.length := removeFirst_getD_lt _ _ _ _ hrem
  have hl0 : 0 ≤ label.costsofar := inv.queue_nonneg label hlmem
  have hreach : ReachCost cols M (tm id) id label.costsofar := by
    have hr := inv.queue_reach label hlmem
    rw [hstate] at hr
    exact hr
  have hge : ∀ pr ∈ st.scanned, pr.2.costsofar ≤ label.costsofar :=
    fun pr hpr => inv.queue_ge label hlmem pr hpr
  have hmincost : ∀ c, ReachCost cols M (tm id) id c → label.costsofar ≤ c := by
    intro c hc
    obtain ⟨lb, hlb, hle⟩ :=
      seg_frontier cols M tm Htm Hmono Hgrow st inv (tm id) id c hc hlook hearly
    exact le_trans (hmin lb hlb) hle
  have hearliest_ge : st.earliest ≤ st1.earliest := by
    rw [he1]
    split
    · omega
    · exact le_refl _
  have hlookup1 : List.lookup id st1.scanned = some label := by
    rw [hsc, List.lookup]
    simp
  have hlookup2 : ∀ s, s ≠ id → List.lookup s st1.scanned = List.lookup s st.scanned := by
    intro s hs
    rw [hsc, List.lookup]
    have hbeq : (s == id) = false := by simp [hs]
    rw [hbeq]
  refine ⟨⟨?_, ?_, ?_, ?_, ?_, ?_, ?_, ?_, ?_, ?_, ?_, ?_, ?_⟩, label, hsc⟩
  · rw [hun, List.length_set]
    exact inv.len_eq
  · intro t ht s hs
    by_cases hsid : s = id
    · subst hsid
      right
      rw [hlookup1]
      rfl
    · rcases inv.cols_split t ht s hs with hin | hsct
      · left
        by_cases htt : t = tm id
        · subst htt
          rw [hun, getD_set_self _ _ _ htlt]
          exact removeFirst_mem_of_ne id _ col s hrem hin hsid
        · rw [hun, getD_set_ne _ _ _ _ (fun hh => htt hh.symm)]
          exact hin
      · right
        rw [hlookup2 s hsid]
        exact hsct
  · intro t s hs
    by_cases htt : t = tm id
    · subst htt
      rw [hun, getD_set_self _ _ _ htlt] at hs
      exact inv.unreached_sub _ s (removeFirst_subset id _ col s hrem hs)
    · rw [hun, getD_set_ne _ _ _ _ (fun hh => htt hh.symm)] at hs
      exact inv.unreached_sub t s hs
  · intro hpos
    by_cases hcol : col = []
    · rw [he1, if_pos hcol, hun, Nat.add_sub_cancel, getD_set_self _ _ _ htlt]
      exact hcol
    · rw [he1, if_neg hcol] at hpos ⊢
      rw [hun, getD_set_ne _ _ _ _ (by omega)]
      exact inv.front_empty hpos
  · rw [hsc]
    simp only [List.map_cons]
    exact List.nodup_cons.2 ⟨lookup_none_not_key _ _ hlook, inv.keys_nodup⟩
  · rw [hsc]
    exact List.pairwise_cons.2 ⟨fun pr hpr => hge pr hpr, inv.scanned_desc⟩
  · intro lb hlb pr hpr
    rw [hq] at hlb
    have hlb' : lb ∈ st.queue := queueRemove_subset _ _ _ hlb
    rw [hsc] at hpr
    rcases List.mem_cons.1 hpr with hpr | hpr
    · subst hpr
      exact hmin lb hlb'
    · exact inv.queue_ge lb hlb' pr hpr
  · intro lb hlb
    rw [hq] at hlb
    exact inv.queue_nonneg lb (queueRemove_subset _ _ _ hlb)
  · intro lb hlb
    rw [hq] at hlb
    exact inv.queue_reach lb (queueRemove_subset _ _ _ hlb)
  · intro pr hpr
    rw [hsc] at hpr
    rcases List.mem_cons.1 hpr with hpr | hpr
    · subst hpr
      exact hreach
    · exact inv.scanned_reach pr hpr
  · intro pr hpr
    rw [hsc] at hpr
    rcases List.mem_cons.1 hpr with hpr | hpr
    · subst hpr
      exact hmincost
    · exact inv.scanned_min pr hpr
  · intro pr hpr hprex w hw hew htrw
    rw [hsc] at hpr
    rcases List.mem_cons.1 hpr with hpr | hpr
    · subst hpr
      simp at hprex
    · have hprex2 : pr.1 ∉ ([] : List ℕ) := by simp
      rcases inv.expanded pr hpr hprex2 w hw hew htrw with
        ⟨lw, hlw, hlwle⟩ | ⟨hwn, hrest⟩
      · have hwid : w ≠ id := by
          intro hh
          subst hh
          rw [hlook] at hlw
          simp at hlw
        exact Or.inl ⟨lw, by rw [hlookup2 w hwid]; exact hlw, hlwle⟩
      · by_cases hwid : w = id
        · subst hwid
          refine Or.inl ⟨label, hlookup1, ?_⟩
          rcases hrest with hde | ⟨lb, hlb, hlbs, hlble⟩
          · omega
          · exact le_trans (hmin lb hlb) hlble
        · refine Or.inr ⟨by rw [hlookup2 w hwid]; exact hwn, ?_⟩
          rcases hrest with hde | ⟨lb, hlb, hlbs, hlble⟩
          · exact Or.inl (by omega)
          · have hne : lb ≠ label := by
              intro hh
              subst hh
              rw [hstate] at hlbs
              exact hwid hlbs.symm
            exact Or.inr ⟨lb, by rw [hq]; exact queueRemove_mem_of_ne _ _ _ hlb hne,
              hlbs, hlble⟩
  · intro s hs hsun hse
    have hsid : s ≠ id := by
      intro hh
      subst hh
      rw [hlookup1] at hsun
      simp at hsun
    have hsun' : List.lookup s st.scanned = none := by
      rw [hlookup2 s hsid] at hsun
      exact hsun
    rcases inv.seeded s hs hsun' hse with h0 | ⟨lb, hlb, hlbs, hlble⟩
    · exact Or.inl (by omega)
    · have hne : lb ≠ label := by
        intro hh
        subst hh
        rw [hstate] at hlbs
        exact hsid hlbs.symm
      exact Or.inr ⟨lb, by rw [hq]; exact queueRemove_mem_of_ne _ _ _ hlb hne,
        hlbs, hlble⟩

/-- Discarding a stale popped label preserves the segment invariant. -/
theorem seg_discard (cols : List (List ℕ)) (M : CostModel) (tm : ℕ → ℕ)
    (Htm : ∀ t < cols.length, ∀ s ∈ cols.getD t [], tm s = t)
    (st st1 : LazyState)
    (inv : SegInvP cols M tm [] st)
    (h : lazyPopStep tm st = .discarded st1) :
    SegInvP cols M tm [] st1 := by
  obtain ⟨label, htop, hstale, hst1⟩ := lazyPopStep_discarded_shape tm st st1 h
  subst hst1
  refine ⟨inv.len_eq, inv.cols_split, inv.unreached_sub, inv.front_empty,
    inv.keys_nodup, inv.scanned_desc, ?_, ?_, ?_, inv.scanned_reach,
    inv.scanned_min, ?_, ?_⟩
  · intro lb hlb pr hpr
    exact inv.queue_ge lb (queueRemove_subset _ _ _ hlb) pr hpr
  · intro lb hlb
    exact inv.queue_nonneg lb (queueRemove_subset _ _ _ hlb)
  · intro lb hlb
    exact inv.queue_reach lb (queueRemove_subset _ _ _ hlb)
  · intro pr hpr hex w hw hew htrw
    rcases inv.expanded pr hpr (by simp) w hw hew htrw with
      ⟨lw, hlw, hle⟩ | ⟨hwn, hrest⟩
    · exact Or.inl ⟨lw, hlw, hle⟩
    · refine Or.inr ⟨hwn, ?_⟩
      rcases hrest with hde | ⟨lb, hlb, hlbs, hlble⟩
      · exact Or.inl hde
      · by_cases hne : lb = label
        · subst hne
          rw [hlbs] at hstale
          exact Or.inl hstale
        · exact Or.inr ⟨lb, queueRemove_mem_of_ne _ _ _ hlb hne, hlbs, hlble⟩
  · intro s hs hsun hse
    rcases inv.seeded s hs hsun hse with h0 | ⟨lb, hlb, hlbs, hlble⟩
    · exact Or.inl h0
    · by_cases hne : lb = label
      · subst hne
        rw [hlbs] at hstale
        have hs0 : tm s = 0 := Htm 0 (mem_getD_lt _ _ _ hs) s hs
        rw [hs0] at hstale
        exact Or.inl hstale
      · exact Or.inr ⟨lb, queueRemove_mem_of_ne _ _ _ hlb hne, hlbs, hlble⟩

/-- Expanding the successors of the just-settled state restores the full
segment invariant. -/
theorem seg_expand (cols : List (List ℕ)) (M : CostModel) (tm : ℕ → ℕ)
    (Htm : ∀ t < cols.length, ∀ s ∈ cols.getD t [], tm s = t)
    (Hgrow : ∀ x u e : ℤ, 0 ≤ x → 0 ≤ u → 0 ≤ e → x ≤ M.costSofar x u e)
    (st st2 : LazyState) (id : ℕ) (label : LLabel) (rest : List (ℕ × LLabel))
    (hsc : st.scanned = (id, label) :: rest)
    (inv : SegInvP cols M tm [id] st)
    (h : addSuccessorsToQueue M tm st id = .ok st2) :
    SegInvP cols M tm [] st2 := by
  obtain ⟨hlt, lab, hlab, hlab0, hst2⟩ := addSucc_ok_shape M tm st id st2 h
  have hlabel : label = lab := by
    rw [hsc, List.lookup] at hlab
    simp at hlab
    exact hlab
  subst hlabel
  subst hst2
  have hlen : tm id + 1 < cols.length := by
    rw [← inv.len_eq]
    exact hlt
  have hgeall : ∀ pr ∈ st.scanned, pr.2.costsofar ≤ label.costsofar := by
    intro pr hpr
    rw [hsc] at hpr
    rcases List.mem_cons.1 hpr with hpr | hpr
    · subst hpr
      exact le_refl _
    · exact (List.pairwise_cons.1 (hsc ▸ inv.scanned_desc)).1 pr hpr
  have hheadmem : (id, label) ∈ st.scanned := by
    rw [hsc]
    exact List.mem_cons_self _ _
  have hreach : ReachCost cols M (tm id) id label.costsofar :=
    inv.scanned_reach (id, label) hheadmem
  refine ⟨inv.len_eq, inv.cols_split, inv.unreached_sub, inv.front_empty,
    inv.keys_nodup, inv.scanned_desc, ?_, ?_, ?_, inv.scanned_reach,
    inv.scanned_min, ?_, ?_⟩
  · intro lb hlb pr hpr
    rcases (succ_fold_mem M label.costsofar id _ _ lb).1 hlb with
      hq | ⟨w, hw, h1, h2, h3, h4⟩
    · exact inv.queue_ge lb hq pr hpr
    · subst h4
      exact le_trans (hgeall pr hpr) (Hgrow _ _ _ hlab0 h2 h1)
  · intro lb hlb
    rcases (succ_fold_mem M label.costsofar id _ _ lb).1 hlb with
      hq | ⟨w, hw, h1, h2, h3, h4⟩
    · exact inv.queue_nonneg lb hq
    · subst h4
      exact h3
  · intro lb hlb
    rcases (succ_fold_mem M label.costsofar id _ _ lb).1 hlb with
      hq | ⟨w, hw, h1, h2, h3, h4⟩
    · exact inv.queue_reach lb hq
    · subst h4
      have hwcols : w ∈ cols.getD (tm id + 1) [] := inv.unreached_sub _ w hw
      have htmw : tm w = tm id + 1 := Htm (tm id + 1) hlen w hwcols
      show ReachCost cols M (tm w) w _
      rw [htmw]
      exact ReachCost.step (tm id) id w label.costsofar hreach hwcols h1 h2 h3
  · intro pr hpr hex w hw hew htrw
    by_cases hprid : pr.1 = id
    · have hpreq : pr = (id, label) := by
        rw [hsc] at hpr
        rcases List.mem_cons.1 hpr with hpr | hpr
        · exact hpr
        · exfalso
          have hnd := inv.keys_nodup
          rw [hsc] at hnd
          simp only [List.map_cons] at hnd
          have := (List.nodup_cons.1 hnd).1
          exact this (hprid ▸ List.mem_map_of_mem Prod.fst hpr)
      subst hpreq
      cases hlu : List.lookup w st.scanned with
      | some lw =>
        refine Or.inl ⟨lw, rfl, ?_⟩
        exact le_trans (hgeall (w, lw) (lookup_mem _ _ _ hlu))
          (Hgrow _ _ _ hlab0 htrw hew)
      | none =>
        have hin : w ∈ st.unreached.getD (tm id + 1) [] := by
          rcases inv.cols_split (tm id + 1) hlen w hw with hin | hsct
          · exact hin
          · rw [hlu] at hsct
            simp at hsct
        have hcs0 : 0 ≤ M.costSofar label.costsofar (M.transition id w) (M.emission w) :=
          le_trans hlab0 (Hgrow _ _ _ hlab0 htrw hew)
        refine Or.inr ⟨rfl, Or.inr ⟨⟨_, w, some id⟩, ?_, rfl, le_refl _⟩⟩
        exact (succ_fold_mem M label.costsofar id _ _ _).2
          (Or.inr ⟨w, hin, hew, htrw, hcs0, rfl⟩)
    · rcases inv.expanded pr hpr (by simp [hprid]) w hw hew htrw with
        ⟨lw, hlw, hle⟩ | ⟨hwn, hrest⟩
      · exact Or.inl ⟨lw, hlw, hle⟩
      · refine Or.inr ⟨hwn, ?_⟩
        rcases hrest with hde | ⟨lb, hlb, hlbs, hlble⟩
        · exact Or.inl hde
        · exact Or.inr ⟨lb,
            (succ_fold_mem M label.costsofar id _ _ lb).2 (Or.inl hlb), hlbs, hlble⟩
  · intro s hs hsun hse
    rcases inv.seeded s hs hsun hse with h0 | ⟨lb, hlb, hlbs, hlble⟩
    · exact Or.inl h0
    · exact Or.inr ⟨lb,
        (succ_fold_mem M label.costsofar id _ _ lb).2 (Or.inl hlb), hlbs, hlble⟩

/-- The emission-seeded start state of the first search segment satisfies
the segment invariant. -/
theorem seg_start (cols : List (List ℕ)) (M : CostModel) (tm : ℕ → ℕ)
    (Htm : ∀ t < cols.length, ∀ s ∈ cols.getD t [], tm s = t) :
    SegInvP cols M tm [] (segStart M cols) := by
  refine ⟨rfl, ?_, ?_, ?_, ?_, ?_, ?_, ?_, ?_, ?_, ?_, ?_, ?_⟩
  · intro t ht s hs
    exact Or.inl hs
  · intro t s hs
    exact hs
  · intro h0
    simp [segStart] at h0
  · simp [segStart]
  · simp [segStart]
  · intro lb hlb pr hpr
    simp [segStart] at hpr
  · intro lb hlb
    rcases (initQueue_mem M (cols.getD 0 []) [] lb).1 hlb with hq | ⟨s, hsm, h1, h2⟩
    · simp at hq
    · subst h2
      exact h1
  · intro lb hlb
    rcases (initQueue_mem M (cols.getD 0 []) [] lb).1 hlb with hq | ⟨s, hsm, h1, h2⟩
    · simp at hq
    · subst h2
      have hs0 : tm s = 0 := Htm 0 (mem_getD_lt _ _ _ hsm) s hsm
      show ReachCost cols M (tm s) s _
      rw [hs0]
      exact ReachCost.base s hsm h1
  · intro pr hpr
    simp [segStart] at hpr
  · intro pr hpr
    simp [segStart] at hpr
  · intro pr hpr
    simp [segStart] at hpr
  · intro s hs hsun hse
    exact Or.inr ⟨⟨M.emission s, s, none⟩,
      (initQueue_mem M (cols.getD 0 []) [] _).2 (Or.inr ⟨s, hs, hse, rfl⟩),
      rfl, le_refl _⟩

/-- Through any successful run of the LAZY main loop from a state satisfying
the segment invariant, every settled state's recorded cost is realized by a
valid path from column 0 and minimal over all such paths. -/
theorem lazyLoop_seg (cols : List (List ℕ)) (M : CostModel) (tm : ℕ → ℕ)
    (Htm : ∀ t < cols.length, ∀ s ∈ cols.getD t [], tm s = t)
    (Hmono : ∀ x y u e : ℤ, x ≤ y → M.costSofar x u e ≤ M.costSofar y u e)
    (Hgrow : ∀ x u e : ℤ, 0 ≤ x → 0 ≤ u → 0 ≤ e → x ≤ M.costSofar x u e) :
    ∀ (fuel target searched : ℕ) (st : LazyState) (s : ℕ) (st1 : LazyState),
      SegInvP cols M tm [] st →
      lazyLoop M tm fuel target searched st = .ok (s, st1) →
      ∀ pr ∈ st1.scanned,
        ReachCost cols M (tm pr.1) pr.1 pr.2.costsofar ∧
        ∀ c, ReachCost cols M (tm pr.1) pr.1 c → pr.2.costsofar ≤ c := by
  intro fuel
  induction fuel with
  | zero =>
    intro target searched st s st1 inv h
    simp [lazyLoop] at h
  | succ fuel ih =>
    intro target searched st s st1 inv h
    simp only [lazyLoop] at h
    cases hp : lazyPopStep tm st with
    | empty =>
      rw [hp] at h
      injection h with h1
      injection h1 with h2 h3
      subst h3
      intro pr hpr
      exact ⟨inv.scanned_reach pr hpr, inv.scanned_min pr hpr⟩
    | discarded st2 =>
      rw [hp] at h
      exact ih target searched st2 s st1 (seg_discard cols M tm Htm st st2 inv hp) h
    | err m =>
      rw [hp] at h
      simp at h
    | settled st2 id =>
      rw [hp] at h
      dsimp only at h
      obtain ⟨inv2, label, hsc⟩ :=
        seg_settle cols M tm Htm Hmono Hgrow st st2 id inv hp
      by_cases hbr : target ≤ max (tm id) searched
      · rw [if_pos hbr] at h
        injection h with h1
        injection h1 with h2 h3
        subst h3
        intro pr hpr
        exact ⟨inv2.scanned_reach pr hpr, inv2.scanned_min pr hpr⟩
      · rw [if_neg hbr] at h
        cases ha : addSuccessorsToQueue M tm st2 id with
        | error m => rw [ha] at h; simp at h
        | ok st3 =>
          rw [ha] at h
          exact ih target (max (tm id) searched) st3 s st1
            (seg_expand cols M tm Htm Hgrow st2 st3 id label st.scanned
              hsc inv2 ha) h

/-- C2 (amended): per-segment optimality of the LAZY engine.  For the first
search segment — an `IterativeSearch` call on a freshly populated engine,
which seeds the queue with emission-only labels from column 0 — every state
settled into the scanned map has recorded `costsofar` equal to the minimum
`CostSofar` over all valid paths from a time-0 state to it, provided the
cost model has non-negative effective edges (`CostSofar(x, tr, e) ≥ x` on
valid components) and is monotone non-decreasing in the accumulated cost.
Across breakage restarts this fails (`c2_counterexample`): states settled
by later segments carry emission-seeded costs with no valid time-0 path. -/
theorem c2_segment_optimal (cols : List (List ℕ)) (M : CostModel) (tm : ℕ → ℕ)
    (fuel target : ℕ) (rq : Bool) (searched : ℕ) (st1 : LazyState)
    (Htm : ∀ t < cols.length, ∀ s ∈ cols.getD t [], tm s = t)
    (Hmono : ∀ x y u e : ℤ, x ≤ y → M.costSofar x u e ≤ M.costSofar y u e)
    (Hgrow : ∀ x u e : ℤ, 0 ≤ x → 0 ≤ u → 0 ≤ e → x ≤ M.costSofar x u e)
    (h : iterativeSearch M tm fuel target rq (initLazy cols) = .ok (searched, st1)) :
    ∀ pr ∈ st1.scanned,
      (pathCostsTo cols M (tm pr.1) pr.1).min? = some pr.2.costsofar := by
  unfold iterativeSearch at h
  by_cases hlen : (initLazy cols).unreached.length ≤ target
  · rw [if_pos hlen] at h
    simp at h
  · rw [if_neg hlen] at h
    rw [if_neg (by simp [initLazy])] at h
    have hcont : (if rq then none
        else match (initLazy cols).winner.getLast? with
          | some (some w) => some w
          | _ => none) = (none : Option ℕ) := by
      cases rq
      · simp [initLazy]
      · simp
    rw [hcont] at h
    dsimp only at h
    cases hrun : lazyLoop M tm fuel target (initLazy cols).winner.length
        { unreached := (initLazy cols).unreached, winner := (initLazy cols).winner,
          scanned := (initLazy cols).scanned,
          queue :=
            initQueue M
              ((initLazy cols).unreached.getD (initLazy cols).winner.length []),
          earliest := (initLazy cols).earliest } with
    | error m => rw [hrun] at h; simp at h
    | ok p =>
      obtain ⟨s2, st2⟩ := p
      rw [hrun] at h
      dsimp only at h
      injection h with h1
      injection h1 with h2 h3
      subst h2
      subst h3
      have hfacts := lazyLoop_seg cols M tm Htm Hmono Hgrow fuel target
        (initLazy cols).winner.length _ s2 st2 (seg_start cols M tm Htm) hrun
      intro pr hpr
      have hpr2 : pr ∈ st2.scanned := hpr
      obtain ⟨hre, hmin⟩ := hfacts pr hpr2
      refine min?_eq_of_mem_le _ _ (reach_pathsTo _ _ _ _ _ hre) ?_
      intro b hb
      rw [pathCostsTo, List.mem_filterMap] at hb
      obtain ⟨P, hP, hPc⟩ := hb
      exact hmin b (pathsTo_reach cols M (tm pr.1) pr.1 P hP b hPc)

/-- Witness for the amended C2 on the breakage trellis: the first
`IterativeSearch` of `SearchWinner(2)` settles exactly state 0 and its
recorded cost 0 is the minimum valid-path cost from column 0. -/
theorem c2_witness :
    (∀ t < cols5.length, ∀ s ∈ cols5.getD t [], tmId s = t) ∧
    (∀ x y u e : ℤ, x ≤ y → M5.costSofar x u e ≤ M5.costSofar y u e) ∧
    (∀ x u e : ℤ, 0 ≤ x → 0 ≤ u → 0 ≤ e → x ≤ M5.costSofar x u e) ∧
    iterativeSearch M5 tmId 10 2 false (initLazy cols5) = .ok (0, st5seg) ∧
    ∀ pr ∈ st5seg.scanned,
      (pathCostsTo cols5 M5 (tmId pr.1) pr.1).min? = some pr.2.costsofar :=
  ⟨by decide, fun x y u e hh => by dsimp only [M5]; omega,
    fun x u e h1 h2 h3 => by dsimp only [M5]; omega, by decide,
    c2_segment_optimal cols5 M5 tmId 10 2 false 0 st5seg (by decide)
      (fun x y u e hh => by dsimp only [M5]; omega)
      (fun x u e h1 h2 h3 => by dsimp only [M5]; omega) (by decide)⟩
